import Mathlib

/-!
Verification development for the hyperchain workflow execution engine.

The definitions below are a shallow embedding of the server-side code:
`src/server/crypto.ts` (crypto + node handlers), `src/server/oauth.ts`,
`src/server/routes.ts` (credential endpoints) and the scheduler
`executeWorkflow` of `src/unnamed/part_005` (its first version, the one the
specification describes).  JavaScript values flowing through the engine are
modelled by the inductive type `Json` (numbers are modelled as integers,
which covers every value the engine manipulates in the claims; IEEE floats
are out of scope of the embedding).  Node handlers that perform network or
database I/O are abstracted by an oracle function passed to the scheduler;
handlers that are pure in the source (`webhook`, the unknown-type fallback)
are modelled concretely.
-/

set_option maxHeartbeats 1000000

namespace Hyperchain

/-- JSON-like values (JavaScript values without closures).  Objects are
ordered association lists, matching JavaScript property insertion order. -/
inductive Json where
  | null : Json
  | bool (b : Bool) : Json
  | num (n : Int) : Json
  | str (s : String) : Json
  | arr (elems : List Json) : Json
  | obj (fields : List (String × Json)) : Json

/-- JavaScript truthiness of a `Json` value (`0`, `""`, `false`, `null` are
falsy; every array or object is truthy). -/
def truthy : Json → Bool
  | .null => false
  | .bool b => b
  | .num n => n != 0
  | .str s => s != ""
  | .arr _ => true
  | .obj _ => true

/-- Look up a key in an object field list (first occurrence). -/
def fieldGet (fields : List (String × Json)) (k : String) : Option Json :=
  match fields with
  | [] => none
  | (k2, v) :: rest => if k2 = k then some v else fieldGet rest k

/-- Set a key in an object field list: replace in place if present (keeping
the original position, as JavaScript property assignment does), otherwise
append. -/
def fieldSet (fields : List (String × Json)) (k : String) (v : Json) :
    List (String × Json) :=
  match fields with
  | [] => [(k, v)]
  | (k2, w) :: rest =>
    if k2 = k then (k2, v) :: rest else (k2, w) :: fieldSet rest k v

theorem fieldGet_fieldSet_self (fields : List (String × Json)) (k : String)
    (v : Json) : fieldGet (fieldSet fields k v) k = some v := by
  induction fields with
  | nil => simp [fieldSet, fieldGet]
  | cons hd tl ih =>
    obtain ⟨k2, w⟩ := hd
    by_cases h : k2 = k <;> simp [fieldSet, fieldGet, h, ih]

theorem fieldGet_fieldSet_ne (fields : List (String × Json)) (k k2 : String)
    (v : Json) (h : k2 ≠ k) :
    fieldGet (fieldSet fields k v) k2 = fieldGet fields k2 := by
  induction fields with
  | nil =>
    have h2 : k ≠ k2 := fun e => h e.symm
    simp [fieldSet, fieldGet, h2]
  | cons hd tl ih =>
    obtain ⟨k3, w⟩ := hd
    by_cases h3 : k3 = k
    · subst h3
      have h2 : ¬ k3 = k2 := fun e => h e.symm
      simp [fieldSet, fieldGet, h2]
    · by_cases h4 : k3 = k2
      · subst h4
        simp [fieldSet, fieldGet, h3, h]
      · simp [fieldSet, fieldGet, h3, h4, ih]

/-! ### JSON serialization (model of JavaScript `JSON.stringify`)

`JSON.stringify` restricted to the values of the `Json` model: numbers are
integers (printed in decimal), and only the escapes actually produced for
the characters `"`, `\`, newline, tab and carriage return are modelled
(other control characters are treated as ordinary characters). -/

/-- The decimal digit character for `d < 10`. -/
def digitChar (d : Nat) : Char := Char.ofNat (48 + d)

/-- Decimal digits of a natural number, most significant first. -/
def natChars (n : Nat) : List Char :=
  if _h : n < 10 then [digitChar n]
  else natChars (n / 10) ++ [digitChar (n % 10)]
termination_by n
decreasing_by exact Nat.div_lt_self (by omega) (by omega)

/-- Decimal representation of an integer. -/
def intChars (i : Int) : List Char :=
  if i < 0 then '-' :: natChars i.natAbs else natChars i.natAbs

/-- Escape one character of a JSON string literal. -/
def escChar (c : Char) : List Char :=
  if c = '"' then ['\\', '"']
  else if c = '\\' then ['\\', '\\']
  else if c = '\n' then ['\\', 'n']
  else if c = '\t' then ['\\', 't']
  else if c = '\r' then ['\\', 'r']
  else [c]

/-- Escape the characters of a JSON string literal body. -/
def escapeChars : List Char → List Char
  | [] => []
  | c :: rest => escChar c ++ escapeChars rest

mutual

/-- Characters of the JSON serialization of a value. -/
def stringifyChars : Json → List Char
  | .null => 'n' :: ['u', 'l', 'l']
  | .bool true => 't' :: ['r', 'u', 'e']
  | .bool false => 'f' :: ['a', 'l', 's', 'e']
  | .num n => intChars n
  | .str s => '"' :: (escapeChars s.data ++ ['"'])
  | .arr l => '[' :: (stringifyElems l ++ [']'])
  | .obj fs => '{' :: (stringifyFields fs ++ ['}'])

/-- Comma-separated serializations of array elements. -/
def stringifyElems : List Json → List Char
  | [] => []
  | [v] => stringifyChars v
  | v :: w :: rest => stringifyChars v ++ ',' :: stringifyElems (w :: rest)

/-- Comma-separated serializations of object fields. -/
def stringifyFields : List (String × Json) → List Char
  | [] => []
  | [(k, v)] => '"' :: (escapeChars k.data ++ '"' :: ':' :: stringifyChars v)
  | (k, v) :: kv :: rest =>
    ('"' :: (escapeChars k.data ++ '"' :: ':' :: stringifyChars v)) ++
      ',' :: stringifyFields (kv :: rest)

end

/-- Model of `JSON.stringify` producing a `String`. -/
def jsonStringify (v : Json) : String := String.mk (stringifyChars v)

/-! ### JSON parsing (model of JavaScript `JSON.parse`)

A recursive-descent parser over the character list, with a fuel argument
for termination.  It accepts exactly the canonical whitespace-free texts
emitted by the serializer above (plus leading-zero numerals); `JSON.parse`'s
tolerance for whitespace is immaterial to every claim considered here. -/

/-- Numeric value of a digit character. -/
def digitVal (c : Char) : Nat := c.toNat - 48

/-- Consume a maximal run of digits, accumulating their value. -/
def goDigits (acc : Nat) : List Char → Nat × List Char
  | [] => (acc, [])
  | c :: rest =>
    if c.isDigit then goDigits (10 * acc + digitVal c) rest else (acc, c :: rest)

/-- Parse a nonempty run of digits as a natural number. -/
def parseNatChars : List Char → Option (Nat × List Char)
  | [] => none
  | c :: rest => if c.isDigit then some (goDigits (digitVal c) rest) else none

/-- Decode one escape character of a JSON string literal. -/
def unescChar (c : Char) : Option Char :=
  if c = '"' then some '"'
  else if c = '\\' then some '\\'
  else if c = '/' then some '/'
  else if c = 'n' then some '\n'
  else if c = 't' then some '\t'
  else if c = 'r' then some '\r'
  else if c = 'b' then some (Char.ofNat 8)
  else if c = 'f' then some (Char.ofNat 12)
  else none

/-- Parse the body of a JSON string literal, after the opening quote, up to
and including the closing quote. -/
def parseStringBody : List Char → Option (List Char × List Char)
  | [] => none
  | '"' :: rest => some ([], rest)
  | '\\' :: e :: rest =>
    match unescChar e with
    | some c =>
      match parseStringBody rest with
      | some (s, r) => some (c :: s, r)
      | none => none
    | none => none
  | c :: rest =>
    match parseStringBody rest with
    | some (s, r) => some (c :: s, r)
    | none => none

mutual

/-- Parse one JSON value. -/
def parseVal : Nat → List Char → Option (Json × List Char)
  | 0, _ => none
  | _ + 1, [] => none
  | fuel + 1, c :: rest =>
    if c = 'n' then
      match rest with
      | 'u' :: 'l' :: 'l' :: r => some (.null, r)
      | _ => none
    else if c = 't' then
      match rest with
      | 'r' :: 'u' :: 'e' :: r => some (.bool true, r)
      | _ => none
    else if c = 'f' then
      match rest with
      | 'a' :: 'l' :: 's' :: 'e' :: r => some (.bool false, r)
      | _ => none
    else if c = '"' then
      match parseStringBody rest with
      | some (s, r) => some (.str (String.mk s), r)
      | none => none
    else if c = '-' then
      match parseNatChars rest with
      | some (n, r) => some (.num (-(n : Int)), r)
      | none => none
    else if c = '[' then
      if rest.head? = some ']' then some (.arr [], rest.tail)
      else
        match parseElems fuel rest with
        | some (l, r) => some (.arr l, r)
        | none => none
    else if c = '{' then
      if rest.head? = some '}' then some (.obj [], rest.tail)
      else
        match parseFields fuel rest with
        | some (fs, r) => some (.obj fs, r)
        | none => none
    else if c.isDigit then
      match parseNatChars (c :: rest) with
      | some (n, r) => some (.num (n : Int), r)
      | none => none
    else none

/-- Parse a nonempty comma-separated element list, including the closing
bracket. -/
def parseElems : Nat → List Char → Option (List Json × List Char)
  | 0, _ => none
  | fuel + 1, cs =>
    match parseVal fuel cs with
    | some (v, ',' :: r) =>
      match parseElems fuel r with
      | some (l, r2) => some (v :: l, r2)
      | none => none
    | some (v, ']' :: r) => some ([v], r)
    | _ => none

/-- Parse a nonempty comma-separated field list, including the closing
brace. -/
def parseFields : Nat → List Char → Option (List (String × Json) × List Char)
  | 0, _ => none
  | fuel + 1, cs =>
    match cs with
    | '"' :: rest =>
      match parseStringBody rest with
      | some (k, ':' :: r) =>
        match parseVal fuel r with
        | some (v, ',' :: r2) =>
          match parseFields fuel r2 with
          | some (fs, r3) => some ((String.mk k, v) :: fs, r3)
          | none => none
        | some (v, '}' :: r2) => some ([(String.mk k, v)], r2)
        | _ => none
      | _ => none
    | _ => none

end

/-- Model of `JSON.parse`: `none` models a thrown `SyntaxError`. -/
def jsonParse (s : String) : Option Json :=
  match parseVal (s.data.length + 1) s.data with
  | some (v, []) => some v
  | _ => none

/-! ### Round-trip facts: the parser inverts the serializer -/

/-- `true` when the list does not start with a digit (so a numeral cannot be
extended by what follows). -/
def headNotDigit : List Char → Bool
  | [] => true
  | c :: _ => !c.isDigit

theorem digitChar_isDigit {d : Nat} (h : d < 10) :
    (digitChar d).isDigit = true := by
  interval_cases d <;> decide

theorem digitVal_digitChar {d : Nat} (h : d < 10) :
    digitVal (digitChar d) = d := by
  interval_cases d <;> decide

theorem isDigit_ne_special {c : Char} (h : c.isDigit = true) :
    c ≠ 'n' ∧ c ≠ 't' ∧ c ≠ 'f' ∧ c ≠ '"' ∧ c ≠ '-' ∧ c ≠ '[' ∧ c ≠ '{' ∧
      c ≠ ']' ∧ c ≠ '}' ∧ c ≠ ',' ∧ c ≠ ':' := by
  refine ⟨?_, ?_, ?_, ?_, ?_, ?_, ?_, ?_, ?_, ?_, ?_⟩ <;>
    · intro e
      rw [e] at h
      exact absurd h (by decide)

theorem natChars_ne_nil (n : Nat) : natChars n ≠ [] := by
  rw [natChars]
  split
  · simp
  · simp

theorem natChars_head_isDigit (n : Nat) :
    ∀ c cs, natChars n = c :: cs → c.isDigit = true := by
  induction n using Nat.strong_induction_on with
  | _ n ih =>
    intro c cs h
    rw [natChars] at h
    split at h
    · rename_i hlt
      rw [List.cons.injEq] at h
      rw [← h.1]
      exact digitChar_isDigit hlt
    · rename_i hge
      cases h2 : natChars (n / 10) with
      | nil => exact absurd h2 (natChars_ne_nil _)
      | cons c2 cs2 =>
        rw [h2, List.cons_append, List.cons.injEq] at h
        rw [← h.1]
        exact ih (n / 10) (Nat.div_lt_self (by omega) (by omega)) c2 cs2 h2

theorem goDigits_natChars (n : Nat) :
    ∀ acc rest, goDigits acc (natChars n ++ rest) =
      goDigits (acc * 10 ^ (natChars n).length + n) rest := by
  induction n using Nat.strong_induction_on with
  | _ n ih =>
    intro acc rest
    rw [natChars]
    split
    · rename_i hlt
      simp only [List.singleton_append, List.length_cons, List.length_nil,
        goDigits, digitChar_isDigit hlt, if_true, digitVal_digitChar hlt]
      congr 1
      ring
    · rename_i hge
      rw [List.append_assoc,
        ih (n / 10) (Nat.div_lt_self (by omega) (by omega)) acc
          ([digitChar (n % 10)] ++ rest)]
      have hm : n % 10 < 10 := Nat.mod_lt _ (by omega)
      simp only [List.singleton_append, goDigits, digitChar_isDigit hm,
        if_true, digitVal_digitChar hm, List.length_append,
        List.length_cons, List.length_nil]
      congr 1
      have hn : 10 * (n / 10) + n % 10 = n := by omega
      calc 10 * (acc * 10 ^ (natChars (n / 10)).length + n / 10) + n % 10
          = acc * (10 ^ (natChars (n / 10)).length * 10) +
              (10 * (n / 10) + n % 10) := by ring
        _ = acc * 10 ^ ((natChars (n / 10)).length + (0 + 1)) + n := by
            rw [hn, ← pow_succ]

theorem goDigits_stop (acc : Nat) (rest : List Char)
    (h : headNotDigit rest = true) : goDigits acc rest = (acc, rest) := by
  cases rest with
  | nil => rfl
  | cons c cs =>
    simp only [headNotDigit, Bool.not_eq_true'] at h
    simp [goDigits, h]

theorem parseNatChars_natChars (n : Nat) (rest : List Char)
    (h : headNotDigit rest = true) :
    parseNatChars (natChars n ++ rest) = some (n, rest) := by
  have key : goDigits 0 (natChars n ++ rest) = (n, rest) := by
    rw [goDigits_natChars n 0 rest, Nat.zero_mul, Nat.zero_add,
      goDigits_stop n rest h]
  cases h2 : natChars n with
  | nil => exact absurd h2 (natChars_ne_nil _)
  | cons c cs =>
    have hd := natChars_head_isDigit n c cs h2
    rw [h2, List.cons_append] at key
    simp only [goDigits, hd, if_true] at key
    simp only [List.cons_append, parseNatChars, hd, if_true]
    rw [show 10 * 0 + digitVal c = digitVal c by omega] at key
    rw [key]

theorem parseStringBody_escape (s : List Char) (rest : List Char) :
    parseStringBody (escapeChars s ++ '"' :: rest) = some (s, rest) := by
  induction s with
  | nil => simp [escapeChars, parseStringBody]
  | cons c cs ih =>
    show parseStringBody ((escChar c ++ escapeChars cs) ++ '"' :: rest) = _
    rw [escChar]
    split_ifs with h1 h2 h3 h4 h5
    · subst h1
      simp [parseStringBody, unescChar, ih]
    · subst h2
      simp [parseStringBody, unescChar, ih]
    · subst h3
      simp [parseStringBody, unescChar, ih]
    · subst h4
      simp [parseStringBody, unescChar, ih]
    · subst h5
      simp [parseStringBody, unescChar, ih]
    · rw [List.singleton_append, List.cons_append, parseStringBody.eq_def]
      split
      · rename_i heq
        exact absurd heq (List.cons_ne_nil _ _)
      · rename_i heq
        rw [List.cons.injEq] at heq
        exact absurd heq.1 h1
      · rename_i e r heq
        rw [List.cons.injEq] at heq
        exact absurd heq.1 h2
      · rename_i c2 r hne1 hne2 hlist
        rw [List.cons.injEq] at hlist
        rw [← hlist.2, ih, ← hlist.1]

theorem stringifyChars_head (v : Json) :
    ∃ c cs, stringifyChars v = c :: cs ∧ c ≠ ']' ∧ c ≠ '}' := by
  cases v with
  | null => exact ⟨'n', _, rfl, by decide, by decide⟩
  | bool b => cases b
               <;> exact ⟨_, _, rfl, by decide, by decide⟩
  | num n =>
    rw [show stringifyChars (.num n) = intChars n from rfl, intChars]
    split
    · exact ⟨'-', _, rfl, by decide, by decide⟩
    · cases h2 : natChars n.natAbs with
      | nil => exact absurd h2 (natChars_ne_nil _)
      | cons c cs =>
        have hd := natChars_head_isDigit n.natAbs c cs h2
        have hs := isDigit_ne_special hd
        exact ⟨c, cs, rfl, hs.2.2.2.2.2.2.2.1, hs.2.2.2.2.2.2.2.2.1⟩
  | str s => exact ⟨'"', _, rfl, by decide, by decide⟩
  | arr l => exact ⟨'[', _, rfl, by decide, by decide⟩
  | obj fs => exact ⟨'{', _, rfl, by decide, by decide⟩

theorem stringifyElems_head (l : List Json) (hne : l ≠ []) :
    ∃ c cs, stringifyElems l = c :: cs ∧ c ≠ ']' ∧ c ≠ '}' := by
  cases l with
  | nil => exact absurd rfl hne
  | cons v vs =>
    obtain ⟨c, cs, hcs, hc1, hc2⟩ := stringifyChars_head v
    cases vs with
    | nil => exact ⟨c, cs, by rw [stringifyElems, hcs], hc1, hc2⟩
    | cons w ws =>
      exact ⟨c, cs ++ ',' :: stringifyElems (w :: ws),
        by rw [stringifyElems, hcs, List.cons_append], hc1, hc2⟩

theorem stringifyFields_head (fs : List (String × Json)) (hne : fs ≠ []) :
    ∃ cs, stringifyFields fs = '"' :: cs := by
  cases fs with
  | nil => exact absurd rfl hne
  | cons kv rest =>
    obtain ⟨k, v⟩ := kv
    cases rest with
    | nil => exact ⟨_, by rw [stringifyFields]⟩
    | cons kv2 rest2 => exact ⟨_, by rw [stringifyFields, List.cons_append]⟩

/-- Structural induction principle for the nested inductive `Json`. -/
def Json.recMem {P : Json → Prop}
    (hnull : P .null) (hbool : ∀ b, P (.bool b)) (hnum : ∀ n, P (.num n))
    (hstr : ∀ s, P (.str s))
    (harr : ∀ l, (∀ v ∈ l, P v) → P (.arr l))
    (hobj : ∀ fs, (∀ kv ∈ fs, P kv.2) → P (.obj fs)) :
    ∀ v, P v
  | .null => hnull
  | .bool b => hbool b
  | .num n => hnum n
  | .str s => hstr s
  | .arr l => harr l (fun v _hv =>
      Json.recMem hnull hbool hnum hstr harr hobj v)
  | .obj fs => hobj fs (fun kv _hkv =>
      Json.recMem hnull hbool hnum hstr harr hobj kv.2)
termination_by v => sizeOf v
decreasing_by
  · have := List.sizeOf_lt_of_mem _hv
    simp only [Json.arr.sizeOf_spec]
    omega
  · have h1 := List.sizeOf_lt_of_mem _hkv
    obtain ⟨k, v2⟩ := kv
    simp only [Json.obj.sizeOf_spec]
    simp only [Prod.mk.sizeOf_spec] at h1 ⊢
    omega

/-- The side condition under which a serialized value followed by `rest`
parses unambiguously: a numeral must not be followed by a digit. -/
def numGuard : Json → List Char → Bool
  | .num _, rest => headNotDigit rest
  | _, _ => true

theorem parseElems_stringify (l : List Json) (hne : l ≠ [])
    (IH : ∀ v ∈ l, ∀ rest fuel, (stringifyChars v).length < fuel →
      numGuard v rest = true →
      parseVal fuel (stringifyChars v ++ rest) = some (v, rest)) :
    ∀ rest fuel, (stringifyElems l).length + 1 < fuel →
      parseElems fuel (stringifyElems l ++ ']' :: rest) = some (l, rest) := by
  induction l with
  | nil => exact absurd rfl hne
  | cons v vs ih =>
    intro rest fuel hfuel
    cases fuel with
    | zero => omega
    | succ f =>
      cases vs with
      | nil =>
        rw [stringifyElems] at hfuel ⊢
        have hv := IH v (by simp) (']' :: rest) f (by omega)
          (by cases v <;> simp [numGuard, headNotDigit])
        simp only [parseElems, hv]
      | cons w ws =>
        rw [stringifyElems] at hfuel ⊢
        rw [List.append_assoc, List.cons_append]
        have hv := IH v (by simp)
          (',' :: (stringifyElems (w :: ws) ++ ']' :: rest)) f
          (by simp only [List.length_append, List.length_cons] at hfuel; omega)
          (by cases v <;> simp [numGuard, headNotDigit])
        simp only [parseElems, hv]
        rw [ih (by simp) (fun u hu => IH u (by simp [hu])) rest f
          (by simp only [List.length_append, List.length_cons] at hfuel; omega)]

theorem parseFields_stringify (fs : List (String × Json)) (hne : fs ≠ [])
    (IH : ∀ kv ∈ fs, ∀ rest fuel, (stringifyChars kv.2).length < fuel →
      numGuard kv.2 rest = true →
      parseVal fuel (stringifyChars kv.2 ++ rest) = some (kv.2, rest)) :
    ∀ rest fuel, (stringifyFields fs).length + 1 < fuel →
      parseFields fuel (stringifyFields fs ++ '}' :: rest) = some (fs, rest) := by
  induction fs with
  | nil => exact absurd rfl hne
  | cons kv rest0 ih =>
    obtain ⟨k, v⟩ := kv
    intro rest fuel hfuel
    cases fuel with
    | zero => omega
    | succ f =>
      cases rest0 with
      | nil =>
        rw [stringifyFields] at hfuel ⊢
        rw [List.cons_append, List.append_assoc, List.cons_append,
          List.cons_append]
        have hv := IH (k, v) (by simp) ('}' :: rest) f (by
            show (stringifyChars v).length < f
            simp only [List.length_cons, List.length_append] at hfuel
            omega)
          (by cases v <;> simp [numGuard, headNotDigit])
        have hkey := parseStringBody_escape k.data
          (':' :: (stringifyChars v ++ '}' :: rest))
        simp only [parseFields, hkey, hv]
      | cons kv2 rest2 =>
        rw [stringifyFields] at hfuel ⊢
        rw [List.append_assoc, List.cons_append, List.cons_append,
          List.append_assoc, List.cons_append, List.cons_append]
        have hv := IH (k, v) (by simp)
          (',' :: (stringifyFields (kv2 :: rest2) ++ '}' :: rest)) f
          (by
            show (stringifyChars v).length < f
            simp only [List.length_cons, List.length_append] at hfuel
            omega)
          (by cases v <;> simp [numGuard, headNotDigit])
        have hkey := parseStringBody_escape k.data
          (':' :: (stringifyChars v ++
            ',' :: (stringifyFields (kv2 :: rest2) ++ '}' :: rest)))
        simp only [parseFields, hkey, hv]
        rw [ih (by simp) (fun u hu => IH u (by simp [hu])) rest f
          (by
            simp only [List.length_cons, List.length_append] at hfuel
            omega)]

theorem parseVal_stringify :
    ∀ v : Json, ∀ rest fuel, (stringifyChars v).length < fuel →
      numGuard v rest = true →
      parseVal fuel (stringifyChars v ++ rest) = some (v, rest) := by
  refine Json.recMem ?_ ?_ ?_ ?_ ?_ ?_
  · intro rest fuel h _
    cases fuel with
    | zero => simp [stringifyChars] at h
    | succ f => simp [stringifyChars, parseVal]
  · intro b rest fuel h _
    cases fuel with
    | zero => cases b <;> simp [stringifyChars] at h
    | succ f => cases b <;> simp [stringifyChars, parseVal]
  · intro n rest fuel h g
    rw [show stringifyChars (.num n) = intChars n from rfl, intChars] at h ⊢
    have g2 : headNotDigit rest = true := g
    by_cases hn : n < 0
    · rw [if_pos hn] at h ⊢
      cases fuel with
      | zero => omega
      | succ f =>
        rw [List.cons_append]
        simp only [parseVal, if_neg (by decide : ¬ '-' = 'n'),
          if_neg (by decide : ¬ '-' = 't'), if_neg (by decide : ¬ '-' = 'f'),
          if_neg (by decide : ¬ '-' = '"'), if_pos rfl, eq_self_iff_true,
          if_true, parseNatChars_natChars n.natAbs rest g2]
        have : (-(n.natAbs : Int)) = n := by omega
        rw [this]
    · rw [if_neg hn] at h ⊢
      cases fuel with
      | zero => omega
      | succ f =>
        cases h2 : natChars n.natAbs with
        | nil => exact absurd h2 (natChars_ne_nil _)
        | cons c cs =>
          have hd := natChars_head_isDigit n.natAbs c cs h2
          have hs := isDigit_ne_special hd
          rw [List.cons_append]
          simp only [parseVal, if_neg hs.1, if_neg hs.2.1, if_neg hs.2.2.1,
            if_neg hs.2.2.2.1, if_neg hs.2.2.2.2.1, if_neg hs.2.2.2.2.2.1,
            if_neg hs.2.2.2.2.2.2.1, hd, if_pos rfl, eq_self_iff_true,
            if_true]
          rw [← List.cons_append, ← h2,
            parseNatChars_natChars n.natAbs rest g2]
          have hna : ((n.natAbs : Int)) = n := by omega
          show some (Json.num ((n.natAbs : Nat) : Int), rest) =
            some (Json.num n, rest)
          rw [hna]
  · intro s rest fuel h _
    obtain ⟨sd⟩ := s
    cases fuel with
    | zero => omega
    | succ f =>
      rw [show stringifyChars (.str (String.mk sd)) =
        '"' :: (escapeChars sd ++ ['"']) from rfl]
      rw [List.cons_append, List.append_assoc, List.singleton_append]
      simp only [parseVal, if_neg (by decide : ¬ '"' = 'n'),
        if_neg (by decide : ¬ '"' = 't'), if_neg (by decide : ¬ '"' = 'f'),
        if_pos rfl, eq_self_iff_true, if_true,
        parseStringBody_escape sd rest]
  · intro l IH rest fuel h
    intro _
    cases fuel with
    | zero => omega
    | succ f =>
      cases l with
      | nil =>
        rw [show stringifyChars (.arr []) = ['[', ']'] from rfl]
        simp [parseVal]
      | cons v vs =>
        obtain ⟨c, cs, hcs, hc1, _⟩ :=
          stringifyElems_head (v :: vs) (List.cons_ne_nil _ _)
        rw [show stringifyChars (.arr (v :: vs)) =
          '[' :: (stringifyElems (v :: vs) ++ [']']) from rfl] at h ⊢
        rw [List.cons_append, List.append_assoc, List.singleton_append]
        have hlen : (stringifyElems (v :: vs)).length + 1 < f := by
          simp only [List.length_cons, List.length_append,
            List.length_singleton] at h
          omega
        have helems := parseElems_stringify (v :: vs) (List.cons_ne_nil _ _)
          IH rest f hlen
        rw [hcs] at helems ⊢
        rw [List.cons_append] at helems
        rw [List.cons_append]
        simp only [parseVal, if_neg (by decide : ¬ '[' = 'n'),
          if_neg (by decide : ¬ '[' = 't'), if_neg (by decide : ¬ '[' = 'f'),
          if_neg (by decide : ¬ '[' = '"'), if_neg (by decide : ¬ '[' = '-'),
          if_pos rfl, eq_self_iff_true, if_true, List.head?_cons,
          if_neg (by simp [hc1] : ¬(some c = some ']')), helems]
  · intro fs IH rest fuel h
    intro _
    cases fuel with
    | zero => omega
    | succ f =>
      cases fs with
      | nil =>
        rw [show stringifyChars (.obj []) = ['{', '}'] from rfl]
        simp [parseVal]
      | cons kv rest0 =>
        obtain ⟨cs, hcs⟩ := stringifyFields_head (kv :: rest0)
          (List.cons_ne_nil _ _)
        rw [show stringifyChars (.obj (kv :: rest0)) =
          '{' :: (stringifyFields (kv :: rest0) ++ ['}']) from rfl] at h ⊢
        rw [List.cons_append, List.append_assoc, List.singleton_append]
        have hlen : (stringifyFields (kv :: rest0)).length + 1 < f := by
          simp only [List.length_cons, List.length_append,
            List.length_singleton] at h
          omega
        have hflds := parseFields_stringify (kv :: rest0)
          (List.cons_ne_nil _ _) IH rest f hlen
        rw [hcs] at hflds ⊢
        rw [List.cons_append] at hflds
        rw [List.cons_append]
        simp only [parseVal, if_neg (by decide : ¬ '{' = 'n'),
          if_neg (by decide : ¬ '{' = 't'), if_neg (by decide : ¬ '{' = 'f'),
          if_neg (by decide : ¬ '{' = '"'), if_neg (by decide : ¬ '{' = '-'),
          if_neg (by decide : ¬ '{' = '['), if_pos rfl, eq_self_iff_true,
          if_true, List.head?_cons,
          if_neg (by decide : ¬(some '"' = some '}')), hflds]

/-- The parser inverts the serializer: round-trip at the level of whole
strings. -/
theorem jsonParse_jsonStringify (v : Json) :
    jsonParse (jsonStringify v) = some v := by
  rw [jsonParse, jsonStringify]
  have h := parseVal_stringify v [] ((stringifyChars v).length + 1)
    (by omega) (by cases v <;> simp [numGuard, headNotDigit])
  rw [List.append_nil] at h
  simp only [show (String.mk (stringifyChars v)).data = stringifyChars v
    from rfl, h]

/-! ### Base64 (model of Node `Buffer.toString("base64")` / `from(_, "base64")`)

Bytes are natural numbers below 256. -/

/-- Character of the standard base64 alphabet for a 6-bit value. -/
def b64Char (i : Nat) : Char :=
  if i < 26 then Char.ofNat (65 + i)
  else if i < 52 then Char.ofNat (97 + (i - 26))
  else if i < 62 then Char.ofNat (48 + (i - 52))
  else if i = 62 then '+'
  else '/'

/-- 6-bit value of a base64 alphabet character (`none` on `=` or other
non-alphabet characters, which the lenient Node decoder skips). -/
def b64Index (c : Char) : Option Nat :=
  let n := c.toNat
  if 65 ≤ n ∧ n ≤ 90 then some (n - 65)
  else if 97 ≤ n ∧ n ≤ 122 then some (n - 97 + 26)
  else if 48 ≤ n ∧ n ≤ 57 then some (n - 48 + 52)
  else if c = '+' then some 62
  else if c = '/' then some 63
  else none

/-- Base64-encode a byte list, processing three bytes per chunk. -/
def b64EncodeChunks : List Nat → List Char
  | [] => []
  | [a] => [b64Char (a / 4), b64Char (a % 4 * 16), '=', '=']
  | [a, b] =>
    [b64Char (a / 4), b64Char (a % 4 * 16 + b / 16), b64Char (b % 16 * 4), '=']
  | a :: b :: c :: rest =>
    b64Char (a / 4) :: b64Char (a % 4 * 16 + b / 16) ::
      b64Char (b % 16 * 4 + c / 64) :: b64Char (c % 64) ::
      b64EncodeChunks rest

/-- Model of `Buffer.prototype.toString("base64")`. -/
def base64Encode (bytes : List Nat) : String := String.mk (b64EncodeChunks bytes)

/-- Reassemble bytes from a list of 6-bit values (four values per chunk; a
trailing partial chunk yields the bytes its bits fully cover). -/
def b64DecodeVals : List Nat → List Nat
  | [] => []
  | [_] => []
  | [a, b] => [a * 4 + b / 16]
  | [a, b, c] => [a * 4 + b / 16, b % 16 * 16 + c / 4]
  | a :: b :: c :: d :: rest =>
    (a * 4 + b / 16) :: (b % 16 * 16 + c / 4) :: (c % 4 * 64 + d) ::
      b64DecodeVals rest

/-- Model of `Buffer.from(_, "base64")`: skip non-alphabet characters
(including padding), then reassemble bytes. -/
def base64Decode (s : String) : List Nat :=
  b64DecodeVals (s.data.filterMap b64Index)

/-- Induction on a list three elements at a time. -/
def chunk3Induction {P : List Nat → Prop} (h0 : P []) (h1 : ∀ a, P [a])
    (h2 : ∀ a b, P [a, b])
    (h3 : ∀ a b c rest, P rest → P (a :: b :: c :: rest)) : ∀ l, P l
  | [] => h0
  | [a] => h1 a
  | [a, b] => h2 a b
  | a :: b :: c :: rest => h3 a b c rest (chunk3Induction h0 h1 h2 h3 rest)

theorem b64Index_b64Char {i : Nat} (h : i < 64) :
    b64Index (b64Char i) = some i := by
  interval_cases i <;> decide

theorem b64Char_ne_lbrace {i : Nat} (h : i < 64) : b64Char i ≠ '{' := by
  interval_cases i <;> decide

theorem base64Encode_no_lbrace (bytes : List Nat) :
    (∀ x ∈ bytes, x < 256) → '{' ∉ (base64Encode bytes).data := by
  show (∀ x ∈ bytes, x < 256) → '{' ∉ b64EncodeChunks bytes
  induction bytes using chunk3Induction with
  | h0 => intro _; simp [b64EncodeChunks]
  | h1 a =>
    intro h
    have ha : a < 256 := h a (by simp)
    simp only [b64EncodeChunks, List.mem_cons, List.not_mem_nil, or_false,
      not_or]
    refine ⟨?_, ?_, by decide, ?_⟩
    · exact fun e => b64Char_ne_lbrace (by omega) e.symm
    · exact fun e => b64Char_ne_lbrace (by omega) e.symm
    · decide
  | h2 a b =>
    intro h
    have ha : a < 256 := h a (by simp)
    have hb : b < 256 := h b (by simp)
    simp only [b64EncodeChunks, List.mem_cons, List.not_mem_nil, or_false,
      not_or]
    refine ⟨?_, ?_, ?_, ?_⟩
    · exact fun e => b64Char_ne_lbrace (by omega) e.symm
    · exact fun e => b64Char_ne_lbrace (by omega) e.symm
    · exact fun e => b64Char_ne_lbrace (by omega) e.symm
    · decide
  | h3 a b c rest ih =>
    intro h
    have ha : a < 256 := h a (by simp)
    have hb : b < 256 := h b (by simp)
    have hc : c < 256 := h c (by simp)
    have hrest : ∀ x ∈ rest, x < 256 := fun x hx => h x (by simp [hx])
    simp only [b64EncodeChunks, List.mem_cons, not_or]
    refine ⟨?_, ?_, ?_, ?_, ?_⟩
    · exact fun e => b64Char_ne_lbrace (by omega) e.symm
    · exact fun e => b64Char_ne_lbrace (by omega) e.symm
    · exact fun e => b64Char_ne_lbrace (by omega) e.symm
    · exact fun e => b64Char_ne_lbrace (by omega) e.symm
    · exact ih hrest

theorem base64_roundtrip (bytes : List Nat) :
    (∀ x ∈ bytes, x < 256) → base64Decode (base64Encode bytes) = bytes := by
  show (∀ x ∈ bytes, x < 256) →
    b64DecodeVals ((b64EncodeChunks bytes).filterMap b64Index) = bytes
  induction bytes using chunk3Induction with
  | h0 => intro _; simp [b64EncodeChunks, b64DecodeVals]
  | h1 a =>
    intro h
    have ha : a < 256 := h a (by simp)
    simp only [b64EncodeChunks, List.filterMap_cons,
      b64Index_b64Char (show a / 4 < 64 by omega),
      b64Index_b64Char (show a % 4 * 16 < 64 by omega),
      show b64Index '=' = none from rfl, List.filterMap_nil, b64DecodeVals]
    simp only [List.cons.injEq, and_true]
    omega
  | h2 a b =>
    intro h
    have ha : a < 256 := h a (by simp)
    have hb : b < 256 := h b (by simp)
    simp only [b64EncodeChunks, List.filterMap_cons,
      b64Index_b64Char (show a / 4 < 64 by omega),
      b64Index_b64Char (show a % 4 * 16 + b / 16 < 64 by omega),
      b64Index_b64Char (show b % 16 * 4 < 64 by omega),
      show b64Index '=' = none from rfl, List.filterMap_nil, b64DecodeVals]
    simp only [List.cons.injEq, and_true]
    omega
  | h3 a b c rest ih =>
    intro h
    have ha : a < 256 := h a (by simp)
    have hb : b < 256 := h b (by simp)
    have hc : c < 256 := h c (by simp)
    have hrest : ∀ x ∈ rest, x < 256 := fun x hx => h x (by simp [hx])
    simp only [b64EncodeChunks, List.filterMap_cons,
      b64Index_b64Char (show a / 4 < 64 by omega),
      b64Index_b64Char (show a % 4 * 16 + b / 16 < 64 by omega),
      b64Index_b64Char (show b % 16 * 4 + c / 64 < 64 by omega),
      b64Index_b64Char (show c % 64 < 64 by omega)]
    rw [show ∀ v1 v2 v3 v4 tail, b64DecodeVals (v1 :: v2 :: v3 :: v4 :: tail) =
      (v1 * 4 + v2 / 16) :: (v2 % 16 * 16 + v3 / 4) :: (v3 % 4 * 64 + v4) ::
        b64DecodeVals tail from fun _ _ _ _ _ => rfl]
    rw [ih hrest]
    simp only [List.cons.injEq, and_true]
    refine ⟨by omega, by omega, by omega⟩

/-! ### Crypto component (`src/server/crypto.ts`)

`encrypt`/`decrypt` wrap AES-256-GCM from Node's `crypto` library.  The
cipher itself is library code, not repository code, so it is abstracted: a
`GcmCipher` supplies the fresh 12-byte IV drawn by `crypto.randomBytes` and,
for each plaintext, the ciphertext and authentication-tag bytes produced by
`createCipheriv(..).update/final/getAuthTag`.  Byte lists model octet
strings (entries below 256). -/

structure GcmCipher where
  iv : List Nat
  ctBytes : String → List Nat
  tagBytes : String → List Nat

/-- The exact string `encrypt` feeds to the cipher:
`typeof data === "string" ? data : JSON.stringify(data)`. -/
def stringDataOf (data : Json) : String :=
  match data with
  | .str s => s
  | _ => jsonStringify data

/-- `encrypt` of `src/server/crypto.ts`: the token is
Base64(IV ‖ authTag ‖ ciphertext).  (The source concatenates the three
parts in hex and re-encodes the hex as base64, which is the same byte
string.) -/
def encrypt (gcm : GcmCipher) (data : Json) : String :=
  base64Encode (gcm.iv ++ gcm.tagBytes (stringDataOf data) ++
    gcm.ctBytes (stringDataOf data))

/-- `decrypt` of `src/server/crypto.ts`.  `dec iv tag ct` abstracts the
AES-256-GCM decipher: `none` models the `final()` authentication throw.
The result models `asJSON ? JSON.parse(decrypted) : decrypted`; `.error`
models a throw. -/
def decrypt (dec : List Nat → List Nat → List Nat → Option String)
    (encryptedData : String) (asJSON : Bool) : Except String Json :=
  let combined := base64Decode encryptedData
  let iv := combined.take 12
  let authTag := (combined.drop 12).take 16
  let encryptedBytes := combined.drop 28
  match dec iv authTag encryptedBytes with
  | none => .error "Unsupported state or unable to authenticate data"
  | some decrypted =>
    if asJSON then
      match jsonParse decrypted with
      | some v => .ok v
      | none => .error "SyntaxError: Unexpected token in JSON"
    else .ok (.str decrypted)

theorem decrypt_encrypt_pipeline (gcm : GcmCipher)
    (dec : List Nat → List Nat → List Nat → Option String) (v : Json)
    (hdec : dec gcm.iv (gcm.tagBytes (stringDataOf v))
      (gcm.ctBytes (stringDataOf v)) = some (stringDataOf v))
    (hiv : gcm.iv.length = 12)
    (htag : (gcm.tagBytes (stringDataOf v)).length = 16)
    (hbytes : ∀ x ∈ gcm.iv ++ gcm.tagBytes (stringDataOf v) ++
      gcm.ctBytes (stringDataOf v), x < 256) (asJSON : Bool) :
    decrypt dec (encrypt gcm v) asJSON =
      (if asJSON then
        match jsonParse (stringDataOf v) with
        | some w => .ok w
        | none => .error "SyntaxError: Unexpected token in JSON"
      else .ok (.str (stringDataOf v))) := by
  rw [decrypt, encrypt, base64_roundtrip _ hbytes]
  rw [List.append_assoc]
  have htake : (gcm.iv ++ (gcm.tagBytes (stringDataOf v) ++
      gcm.ctBytes (stringDataOf v))).take 12 = gcm.iv := by
    rw [← hiv, List.take_left]
  have hdrop : (gcm.iv ++ (gcm.tagBytes (stringDataOf v) ++
      gcm.ctBytes (stringDataOf v))).drop 12 =
      gcm.tagBytes (stringDataOf v) ++ gcm.ctBytes (stringDataOf v) := by
    rw [← hiv, List.drop_left]
  have htag2 : ((gcm.iv ++ (gcm.tagBytes (stringDataOf v) ++
      gcm.ctBytes (stringDataOf v))).drop 12).take 16 =
      gcm.tagBytes (stringDataOf v) := by
    rw [hdrop, ← htag, List.take_left]
  have hct : (gcm.iv ++ (gcm.tagBytes (stringDataOf v) ++
      gcm.ctBytes (stringDataOf v))).drop 28 =
      gcm.ctBytes (stringDataOf v) := by
    rw [show (28 : Nat) = 12 + 16 from rfl, ← List.drop_drop, hdrop,
      ← htag, List.drop_left]
  rw [htake, htag2, hct, hdec]

/-- Key nodup check used by well-formedness. -/
def nodupKeys : List String → Bool
  | [] => true
  | k :: rest => (!rest.contains k) && nodupKeys rest

/-- A `Json` value is well formed when no object level repeats a key:
exactly the values representable as JavaScript objects (hence
JSON-serializable). -/
def wfJson : Json → Bool
  | .null => true
  | .bool _ => true
  | .num _ => true
  | .str _ => true
  | .arr l => l.attach.all fun x => wfJson x.1
  | .obj fs => nodupKeys (fs.map Prod.fst) &&
      (fs.attach.all fun x => wfJson x.1.2)
termination_by v => sizeOf v
decreasing_by
  · have := List.sizeOf_lt_of_mem x.2
    simp only [Json.arr.sizeOf_spec]
    omega
  · have h1 := List.sizeOf_lt_of_mem x.2
    obtain ⟨⟨k, v2⟩, hx⟩ := x
    simp only [Json.obj.sizeOf_spec]
    simp only [Prod.mk.sizeOf_spec] at h1 ⊢
    omega

/-! ### Template resolver (`resolveTemplateVariables`, `src/server/crypto.ts`)

The source scans string leaves with
`value.replace(/\x7b\x7b([^}]+)\x7d\x7d/g, (match, path) => ...)`.
A global-regex `replace` splits the string into non-matching characters and
matches and substitutes each match; `decompose` below performs exactly that
split (a match is `{{`, then a nonempty run of non-`}` characters, then
`}}`; on a failed match the scan resumes one character later, as the regex
engine does). -/

/-- One segment of the scan: a non-matching character, or the path captured
by one match of the template regex. -/
inductive Seg where
  | lit (c : Char)
  | ref (path : List Char)

/-- Try to complete a match after an opening `{{`: a nonempty run of
non-`}` characters followed by `}}`; returns the captured path and the
characters after the match. -/
def extractRef (cs : List Char) : Option (List Char × List Char) :=
  if (cs.takeWhile (· != '}')).isEmpty then none
  else
    match cs.dropWhile (· != '}') with
    | '}' :: '}' :: r => some (cs.takeWhile (· != '}'), r)
    | _ => none

theorem extractRef_length {cs path r : List Char}
    (h : extractRef cs = some (path, r)) : r.length < cs.length := by
  unfold extractRef at h
  split_ifs at h
  split at h
  · rename_i r2 hdw
    rw [Option.some.injEq, Prod.mk.injEq] at h
    obtain ⟨h1, h2⟩ := h
    subst h2
    have hle := congrArg List.length
      (List.takeWhile_append_dropWhile (p := (· != '}')) (l := cs))
    rw [hdw] at hle
    simp only [List.length_append, List.length_cons] at hle
    omega
  · exact absurd h (by simp)

/-- Split a string into literal characters and template matches, exactly as
the global regex scan does. -/
def decompose : List Char → List Seg
  | [] => []
  | '{' :: '{' :: rest =>
    match h : extractRef rest with
    | some (path, r) => .ref path :: decompose r
    | none => .lit '{' :: decompose ('{' :: rest)
  | c :: rest => .lit c :: decompose rest
termination_by cs => cs.length
decreasing_by
  · have := extractRef_length h
    simp only [List.length_cons]
    omega
  · simp only [List.length_cons]
    omega
  · simp only [List.length_cons]
    omega

/-- The literal text a match came from (`'{{' + path + '}}'`). -/
def refText (path : List Char) : List Char := '{' :: '{' :: (path ++ ['}', '}'])

/-- Render one segment with a replacement function for matches. -/
def renderSeg (f : List Char → List Char) : Seg → List Char
  | .lit c => [c]
  | .ref path => f path

theorem decompose_recompose (cs : List Char) :
    ((decompose cs).map (renderSeg refText)).flatten = cs := by
  have main : ∀ n cs2, List.length cs2 ≤ n →
      ((decompose cs2).map (renderSeg refText)).flatten = cs2 := by
    intro n
    induction n with
    | zero =>
      intro cs2 hlen
      have he : cs2 = [] := List.length_eq_zero.mp (by omega)
      subst he
      simp [decompose]
    | succ k ih =>
      intro cs2 hlen
      rw [decompose.eq_def]
      split
      · rfl
      · rename_i rest
        split
        · rename_i path r hext
          simp only [List.map_cons, List.flatten_cons, renderSeg, refText]
          rw [ih r (by have := extractRef_length hext
                       simp only [List.length_cons] at hlen
                       omega)]
          unfold extractRef at hext
          split_ifs at hext
          split at hext
          · rename_i r2 hdw
            rw [Option.some.injEq, Prod.mk.injEq] at hext
            have hsplit := List.takeWhile_append_dropWhile
              (p := (· != '}')) (l := rest)
            rw [hext.1, hdw, hext.2] at hsplit
            simp only [List.cons_append, List.append_assoc,
              List.singleton_append, List.nil_append]
            rw [← hsplit]
          · exact absurd hext (by simp)
        · rename_i hext
          simp only [List.map_cons, List.flatten_cons, renderSeg,
            List.singleton_append]
          rw [ih ('{' :: rest)
            (by simp only [List.length_cons] at hlen ⊢; omega)]
      · rename_i x0 c rest hex
        simp only [List.map_cons, List.flatten_cons, renderSeg,
          List.singleton_append]
        rw [ih rest (by simp only [List.length_cons] at hlen; omega)]
  exact main cs.length cs (le_refl _)

/-! #### Path lookup (`(match, path) => ...` replacement callback)

The callback splits the path on `.`, takes `context[nodeId]`, and walks the
remaining parts with
`if (current && typeof current === "object" && part in current)`.
`in` is modelled on own properties (arrays expose their indices and
`length`); prototype-inherited properties are not modelled. -/

/-- `path.split(".")` on character lists (JavaScript `split` semantics:
empty segments are kept). -/
def splitDots : List Char → List (List Char)
  | [] => [[]]
  | '.' :: rest => [] :: splitDots rest
  | c :: rest =>
    match splitDots rest with
    | s :: ss => (c :: s) :: ss
    | [] => [[c]]

/-- `typeof j === "object"` (arrays and `null` included). -/
def isObjectLike : Json → Bool
  | .obj _ => true
  | .arr _ => true
  | .null => true
  | _ => false

/-- JavaScript `part in current` on own properties. -/
def keyIn (j : Json) (k : String) : Bool :=
  match j with
  | .obj fs => (fieldGet fs k).isSome
  | .arr l => k == "length" || (List.range l.length).any (fun i => toString i == k)
  | _ => false

/-- JavaScript `current[part]` on own properties. -/
def jsGet (j : Json) (k : String) : Option Json :=
  match j with
  | .obj fs => fieldGet fs k
  | .arr l =>
    if k == "length" then some (.num l.length)
    else (List.range l.length).findSome?
      (fun i => if toString i == k then l.get? i else none)
  | _ => none

/-- Result of walking the field parts of a path. -/
inductive WalkRes where
  | failed : WalkRes
  | value (v : Option Json) : WalkRes

/-- The `for (const part of fieldParts)` loop of the replacement callback:
`failed` models the early `return match`, `value` the final `current`
(`none` models `undefined`). -/
def walkPath (cur : Option Json) : List (List Char) → WalkRes
  | [] => .value cur
  | p :: ps =>
    match cur with
    | some j =>
      if truthy j && isObjectLike j && keyIn j (String.mk p) then
        walkPath (jsGet j (String.mk p)) ps
      else .failed
    | none => .failed

/-- The replacement callback: resolve the captured path against the
context; on failure return the match text, otherwise substitute the value
(strings directly, other values via `JSON.stringify`; the resolved value
`undefined` substitutes as the string `"undefined"`). -/
def renderRef (ctx : List (String × Json)) (path : List Char) : List Char :=
  match splitDots path with
  | [] => refText path
  | nodeId :: fieldParts =>
    match walkPath (fieldGet ctx (String.mk nodeId)) fieldParts with
    | .failed => refText path
    | .value none => "undefined".data
    | .value (some (.str s)) => s.data
    | .value (some j) => stringifyChars j

/-- `resolveTemplateVariables` on a string leaf. -/
def resolveString (ctx : List (String × Json)) (s : String) : String :=
  String.mk (((decompose s.data).map (renderSeg (renderRef ctx))).flatten)

/-- `resolveTemplateVariables` of `src/server/crypto.ts`: strings are
scanned for template references, arrays and objects are rebuilt with
resolved children, other scalars pass through. -/
def resolveTemplateVariables (value : Json) (ctx : List (String × Json)) :
    Json :=
  match value with
  | .str s => .str (resolveString ctx s)
  | .arr l => .arr (l.attach.map fun x => resolveTemplateVariables x.1 ctx)
  | .obj fs => .obj (fs.attach.map fun x =>
      (x.1.1, resolveTemplateVariables x.1.2 ctx))
  | v => v
termination_by sizeOf value
decreasing_by
  · have := List.sizeOf_lt_of_mem x.2
    simp only [Json.arr.sizeOf_spec]
    omega
  · have h1 := List.sizeOf_lt_of_mem x.2
    obtain ⟨⟨k, v2⟩, hx⟩ := x
    simp only [Json.obj.sizeOf_spec]
    simp only [Prod.mk.sizeOf_spec] at h1 ⊢
    omega

/-! ### Node handlers (`src/server/crypto.ts`, node-executors part)

Handlers that reach the network, the sandbox or the database
(`http-request`, `code`, `ai-chat`, `database`, `email`) are abstracted by
an oracle `eff`; an `.error` result models a thrown exception carrying the
message.  The `webhook` handler and the unknown-type fallback are pure in
the source and are modelled concretely. -/

structure WNode where
  id : String
  type : String
  data : List (String × Json)

structure WEdge where
  id : String
  source : String
  target : String

structure Workflow where
  id : Int
  nodes : List WNode
  edges : List WEdge

/-- The synthetic webhook stub
`{received: true, timestamp: now, body: {}, headers: {}, query: {}}`
(`now` models `new Date().toISOString()`). -/
def webhookStub (now : String) : Json :=
  .obj [("received", .bool true), ("timestamp", .str now),
    ("body", .obj []), ("headers", .obj []), ("query", .obj [])]

/-- `executeWebhook`: `if (context[node.id]) return context[node.id];`
then the stub — note the truthiness test on the pre-seeded value. -/
def executeWebhook (now : String) (node : WNode)
    (context : List (String × Json)) : Json :=
  match fieldGet context node.id with
  | some v => if truthy v then v else webhookStub now
  | none => webhookStub now

/-- The unknown-node-type fallback:
`{ ...node.data, executed: true, nodeType }`. -/
def fallbackOutput (node : WNode) : Json :=
  .obj (fieldSet (fieldSet node.data "executed" (.bool true)) "nodeType"
    (.str node.type))

/-- `executeNode` dispatch over `node.type`. -/
def executeNode (eff : WNode → List (String × Json) → Except String Json)
    (now : String) (node : WNode) (context : List (String × Json)) :
    Except String Json :=
  match node.type with
  | "webhook" => .ok (executeWebhook now node context)
  | "http-request" => eff node context
  | "code" => eff node context
  | "ai-chat" => eff node context
  | "database" => eff node context
  | "email" => eff node context
  | _ => .ok (fallbackOutput node)

/-! ### OAuth helper (`src/server/oauth.ts`) -/

structure OAuthTokens where
  accessToken : String
  refreshToken : String
  expiresAt : Int

/-- The provider's token response, as the source's cast declares it
(`{access_token: string; expires_in: number}`), extended with the
`refresh_token` member a provider may include — which the source never
reads.  `ok` and `errorText` model `response.ok` / `response.text()`. -/
structure RefreshResponse where
  ok : Bool
  access_token : String
  expires_in : Int
  refresh_token : Option String
  errorText : String

/-- `refreshGmailToken` of `src/server/oauth.ts` (`now` models
`Date.now()`; the expiry arithmetic is `Date.now() + expires_in * 1000`).
The returned `refreshToken` is the caller's argument, unconditionally. -/
def refreshGmailToken (resp : RefreshResponse)
    (refreshToken clientId clientSecret : String) (now : Int) :
    Except String OAuthTokens :=
  if !resp.ok then .error ("Failed to refresh token: " ++ resp.errorText)
  else .ok { accessToken := resp.access_token,
             refreshToken := refreshToken,
             expiresAt := now + resp.expires_in * 1000 }

/-! ### Credential endpoints (`src/server/routes.ts`) and the email
handler's token persistence (`executeEmail` in `src/server/crypto.ts`) -/

structure Credential where
  id : Int
  name : String
  type : String
  data : Json
  createdAt : String

structure CredentialSummary where
  id : Int
  name : String
  type : String
  createdAt : String
deriving DecidableEq

/-- The credentials list endpoint: maps each stored credential to
`{id, name, type, createdAt}` — the `data` column is never sent. -/
def credentialsListResponse (creds : List Credential) :
    List CredentialSummary :=
  creds.map (fun c =>
    { id := c.id, name := c.name, type := c.type, createdAt := c.createdAt })

/-- Two credentials that agree on everything except (possibly) the `data`
column. -/
def sameExceptData (c1 c2 : Credential) : Prop :=
  c1.id = c2.id ∧ c1.name = c2.name ∧ c1.type = c2.type ∧
    c1.createdAt = c2.createdAt

/-- The `data` column stored by the credentials-create endpoint:
`encrypt(JSON.parse(input.data))` (`none` models the `JSON.parse` throw,
in which case nothing is stored). -/
def credentialCreateStoredData (gcm : GcmCipher) (inputData : String) :
    Option String :=
  (jsonParse inputData).map (fun v => encrypt gcm v)

/-- The `tokens` object shape persisted by the email handler. -/
def oauthTokensJson (t : OAuthTokens) : Json :=
  .obj [("accessToken", .str t.accessToken),
    ("refreshToken", .str t.refreshToken), ("expiresAt", .num t.expiresAt)]

/-- The `data` column stored by `executeEmail` after a token refresh:
`JSON.stringify({ ...decrypted, tokens })` — a plain `JSON.stringify`, not
an `encrypt` call. -/
def emailRefreshStoredData (decryptedFields : List (String × Json))
    (tokens : OAuthTokens) : String :=
  jsonStringify (.obj (fieldSet decryptedFields "tokens"
    (oauthTokensJson tokens)))

theorem emailRefreshStoredData_head (decryptedFields : List (String × Json))
    (tokens : OAuthTokens) :
    ∃ rest, (emailRefreshStoredData decryptedFields tokens).data =
      '{' :: rest := by
  exact ⟨_, rfl⟩

theorem encrypt_ne_emailRefreshStoredData (gcm : GcmCipher) (v : Json)
    (hbytes : ∀ x ∈ gcm.iv ++ gcm.tagBytes (stringDataOf v) ++
      gcm.ctBytes (stringDataOf v), x < 256)
    (decryptedFields : List (String × Json)) (tokens : OAuthTokens) :
    encrypt gcm v ≠ emailRefreshStoredData decryptedFields tokens := by
  intro heq
  have hno := base64Encode_no_lbrace _ hbytes
  rw [show encrypt gcm v = base64Encode (gcm.iv ++
    gcm.tagBytes (stringDataOf v) ++ gcm.ctBytes (stringDataOf v))
    from rfl] at heq
  rw [heq] at hno
  obtain ⟨rest, hrest⟩ := emailRefreshStoredData_head decryptedFields tokens
  rw [hrest] at hno
  exact hno (by simp)

/-! ### Scheduler (`executeWorkflow`, first version in `src/unnamed/part_005`)

The run is deterministic given the handler oracle `eff` and the timestamp
string `now`; the model returns the terminal execution row (status, error,
persisted `data`), the ordered list of emitted progress snapshots, and the
trace of node executions (handler invocations) in order.  Snapshots keep
the fields the claims are about: execution status, per-node statuses, and
the error string. -/

inductive NodeStatus where
  | pending
  | running
  | success
  | error
  | skipped
deriving DecidableEq

inductive ExecStatus where
  | pending
  | running
  | completed
  | failed
deriving DecidableEq

structure Snapshot where
  status : ExecStatus
  nodes : List (String × NodeStatus)
  error : Option String
deriving DecidableEq

structure RunResult where
  status : ExecStatus
  error : Option String
  data : Option (List (String × Json))
  snapshots : List Snapshot
  trace : List String

/-- A required field is present and truthy (`!data.url` style checks use
JavaScript falsiness). -/
def fieldTruthy (data : List (String × Json)) (k : String) : Bool :=
  match fieldGet data k with
  | some v => truthy v
  | none => false

/-- `validateNodeInputs`: kind-specific required-field checks. -/
def validateNodeInputs (node : WNode) : Option String :=
  match node.type with
  | "http-request" =>
    if !fieldTruthy node.data "url" then
      some ("[" ++ node.id ++ "] Missing required field: url")
    else none
  | "code" =>
    if !fieldTruthy node.data "code" then
      some ("[" ++ node.id ++ "] Missing required field: code")
    else none
  | "ai-chat" =>
    if !fieldTruthy node.data "prompt" && !fieldTruthy node.data "systemPrompt"
    then
      some ("[" ++ node.id ++
        "] Missing required field: at least one of prompt or systemPrompt")
    else none
  | "database" =>
    if !fieldTruthy node.data "connectionString" then
      some ("[" ++ node.id ++ "] Missing required field: connectionString")
    else if !fieldTruthy node.data "query" then
      some ("[" ++ node.id ++ "] Missing required field: query")
    else none
  | "email" =>
    if !fieldTruthy node.data "to" then
      some ("[" ++ node.id ++ "] Missing required field: to")
    else if !fieldTruthy node.data "subject" then
      some ("[" ++ node.id ++ "] Missing required field: subject")
    else if !fieldTruthy node.data "body" then
      some ("[" ++ node.id ++ "] Missing required field: body")
    else none
  | _ => none

/-- The validation loop stops at the first offending node. -/
def firstValidationError : List WNode → Option String
  | [] => none
  | n :: rest =>
    match validateNodeInputs n with
    | some msg => some msg
    | none => firstValidationError rest

/-- `inDegree[id]`: how many edges target `id`. -/
def inDeg (edges : List WEdge) (id : String) : Nat :=
  (edges.filter (fun e => e.target == id)).length

/-- `adj[id]`: targets of edges with source `id`, in edge order.  Only node
ids carry adjacency lists (`adj[edge.source]?.push(edge.target)` drops
edges with unknown sources). -/
def adjOf (wf : Workflow) (id : String) : List String :=
  if wf.nodes.any (fun n => n.id == id) then
    (wf.edges.filter (fun e => e.source == id)).map (fun e => e.target)
  else []

/-- `getParents`: sources of edges targeting `id`. -/
def getParents (edges : List WEdge) (id : String) : List String :=
  (edges.filter (fun e => e.target == id)).map (fun e => e.source)

/-- `nodeMap[id]`: later duplicates overwrite earlier ones, as JavaScript
object assignment does; `none` models `undefined` for an unknown id. -/
def nodeMapGet (wf : Workflow) (id : String) : Option WNode :=
  wf.nodes.reverse.find? (fun n => n.id == id)

/-- Look up a node's status in the progress object. -/
def statusGet (prog : List (String × NodeStatus)) (id : String) :
    Option NodeStatus :=
  match prog with
  | [] => none
  | (k, v) :: rest => if k == id then some v else statusGet rest id

/-- Assign a node's status in the progress object (replace in place or
append, as JavaScript property assignment does). -/
def statusSet (prog : List (String × NodeStatus)) (id : String)
    (st : NodeStatus) : List (String × NodeStatus) :=
  match prog with
  | [] => [(id, st)]
  | (k, v) :: rest =>
    if k == id then (k, st) :: rest else (k, v) :: statusSet rest id st

/-- `nodeProgress` initialization: one `pending` entry per node id (a
JavaScript object keeps one entry per key). -/
def progInit (nodes : List WNode) : List (String × NodeStatus) :=
  nodes.foldl (fun acc n => statusSet acc n.id .pending) []

/-- `markDownstreamSkipped`: recursive descent through `adj`, flipping
`pending` entries to `skipped`.  A neighbor id with no progress entry
models the JavaScript `TypeError` (`nodeProgress[neighborId].status` on
`undefined`), aborting into the outer catch.  `fuel` only bounds the
recursion and is supplied large enough never to run out (every recursive
call strictly decreases the number of `pending` entries). -/
def markSkipped (adj : String → List String) :
    Nat → List (String × NodeStatus) → String →
      Except Unit (List (String × NodeStatus))
  | 0, _, _ => .error ()
  | fuel + 1, prog, nodeId =>
    (adj nodeId).foldlM (fun pr nid =>
      match statusGet pr nid with
      | none => .error ()
      | some st =>
        if st = .pending then
          markSkipped adj fuel (statusSet pr nid .skipped) nid
        else pure pr) prog

/-- Seeding of trigger data: `context[n.id] = triggerData` for every start
node of type `webhook` (only when `triggerData !== undefined`). -/
def seedContext (startNodes : List WNode) (trigger : Option Json) :
    List (String × Json) :=
  match trigger with
  | none => []
  | some t =>
    startNodes.foldl
      (fun ctx n => if n.type == "webhook" then fieldSet ctx n.id t else ctx)
      []

/-- One step of the child-enqueue loop after a node succeeds: enqueue the
child when it is unvisited and all of its parents are visited
(`queue.push(neighborNode)` pushes the possibly-`undefined` `nodeMap`
entry). -/
def enqueueStep (wf : Workflow) (visited1 : List String)
    (q : List (Option WNode)) (nid : String) : List (Option WNode) :=
  if visited1.contains nid then q
  else if (getParents wf.edges nid).all (fun p => visited1.contains p) then
    q ++ [nodeMapGet wf nid]
  else q

/-- State of the BFS traversal loop. -/
structure LoopSt where
  queue : List (Option WNode)
  visited : List String
  ctx : List (String × Json)
  prog : List (String × NodeStatus)
  snaps : List Snapshot
  trace : List String

/-- Outcome of the outer `catch`: execution `failed` with the
`Unexpected error:` prefix and a progress event with an empty node list. -/
def unexpectedResult (st : LoopSt) (msg : String) : RunResult :=
  { status := .failed, error := some ("Unexpected error: " ++ msg),
    data := none,
    snapshots := st.snaps ++
      [{ status := .failed, nodes := [], error := some msg }],
    trace := st.trace }

/-- The `while (queue.length > 0)` traversal.  Each iteration dequeues,
skips visited ids, marks the node `running` (emit), invokes the handler,
and on success stores the output, marks `success` (emit) and enqueues the
children whose parents are all visited; on failure it marks the node
`error`, skips the downstream nodes, emits the `failed` snapshot and
persists the failure.  Dequeuing `undefined` (an unknown child pushed via
`nodeMap`) crashes into the outer catch. -/
def runLoop (eff : WNode → List (String × Json) → Except String Json)
    (now : String) (wf : Workflow) : Nat → LoopSt → RunResult
  | 0, st => unexpectedResult st "out of fuel"
  | fuel + 1, st =>
    match st.queue with
    | [] =>
      { status := .completed, error := none, data := some st.ctx,
        snapshots := st.snaps ++
          [{ status := .completed, nodes := st.prog, error := none }],
        trace := st.trace }
    | none :: _ => unexpectedResult st "Cannot read properties of undefined"
    | some cur :: qrest =>
      if st.visited.contains cur.id then
        runLoop eff now wf fuel { st with queue := qrest }
      else
        let prog1 := statusSet st.prog cur.id .running
        let snaps1 := st.snaps ++
          [{ status := .running, nodes := prog1, error := none }]
        let trace1 := st.trace ++ [cur.id]
        match executeNode eff now cur st.ctx with
        | .ok out =>
          let ctx1 := fieldSet st.ctx cur.id out
          let prog2 := statusSet prog1 cur.id .success
          let snaps2 := snaps1 ++
            [{ status := .running, nodes := prog2, error := none }]
          let visited1 := st.visited ++ [cur.id]
          let queue1 := (adjOf wf cur.id).foldl (enqueueStep wf visited1) qrest
          runLoop eff now wf fuel
            { queue := queue1, visited := visited1, ctx := ctx1,
              prog := prog2, snaps := snaps2, trace := trace1 }
        | .error msg =>
          let prog2 := statusSet prog1 cur.id .error
          match markSkipped (adjOf wf) (wf.nodes.length + 1) prog2 cur.id with
          | .error _ =>
            unexpectedResult
              { st with prog := prog2, snaps := snaps1, trace := trace1 } msg
          | .ok prog3 =>
            { status := .failed, error := some msg, data := some st.ctx,
              snapshots := snaps1 ++
                [{ status := .failed, nodes := prog3, error := some msg }],
              trace := trace1 }

/-- `executeWorkflow(workflow, executionId, triggerData?)`: validation,
graph construction, seeding, traversal, completion. -/
def executeWorkflow (eff : WNode → List (String × Json) → Except String Json)
    (now : String) (wf : Workflow) (triggerData : Option Json) : RunResult :=
  match firstValidationError wf.nodes with
  | some msg =>
    { status := .failed, error := some ("Validation error: " ++ msg),
      data := none,
      snapshots := [{ status := .failed,
                      nodes := wf.nodes.map (fun n => (n.id, NodeStatus.pending)),
                      error := some ("Validation error: " ++ msg) }],
      trace := [] }
  | none =>
    let prog0 := progInit wf.nodes
    let startNodes := wf.nodes.filter (fun n => inDeg wf.edges n.id == 0)
    let ctx0 := seedContext startNodes triggerData
    runLoop eff now wf (wf.nodes.length + wf.edges.length + 1)
      { queue := startNodes.map some, visited := [], ctx := ctx0,
        prog := prog0,
        snaps := [{ status := .running, nodes := prog0, error := none }],
        trace := [] }

/-! ### Progress-map and status-chain lemmas -/

theorem statusGet_statusSet_self (prog : List (String × NodeStatus))
    (id : String) (st : NodeStatus) :
    statusGet (statusSet prog id st) id = some st := by
  induction prog with
  | nil => simp [statusSet, statusGet]
  | cons hd tl ih =>
    obtain ⟨k, v⟩ := hd
    by_cases h : k == id
    · simp [statusSet, statusGet, h]
    · simp only [statusSet, statusGet, h]
      rw [if_neg (by simp_all), ih]

theorem statusGet_statusSet_ne (prog : List (String × NodeStatus))
    (id id2 : String) (st : NodeStatus) (h : id2 ≠ id) :
    statusGet (statusSet prog id st) id2 = statusGet prog id2 := by
  induction prog with
  | nil =>
    simp only [statusSet, statusGet]
    rw [if_neg (by simp_all; exact fun e => h e.symm)]
  | cons hd tl ih =>
    obtain ⟨k, v⟩ := hd
    by_cases h2 : k == id
    · have hk : k = id := by simp_all
      subst hk
      simp only [statusSet, statusGet, if_pos h2]
      rw [if_neg (by simp; exact fun e => h e.symm),
        if_neg (by simp; exact fun e => h e.symm)]
    · simp only [statusSet, statusGet, if_neg h2]
      by_cases h3 : k == id2
      · simp [statusGet, h3]
      · simp only [statusGet, if_neg h3]
        exact ih

theorem statusGet_statusSet_isSome (prog : List (String × NodeStatus))
    (id id2 : String) (st : NodeStatus) :
    (statusGet (statusSet prog id st) id2).isSome =
      ((statusGet prog id2).isSome || id2 == id) := by
  by_cases h : id2 = id
  · subst h
    simp [statusGet_statusSet_self]
  · rw [statusGet_statusSet_ne prog id id2 st h]
    simp [h]

theorem statusGet_progInit (nodes : List WNode) (id : String) :
    statusGet (progInit nodes) id =
      if nodes.any (fun n => n.id == id) then some .pending else none := by
  have main : ∀ (l : List WNode) (acc : List (String × NodeStatus)),
      statusGet (l.foldl (fun a n => statusSet a n.id .pending) acc) id =
        if l.any (fun n => n.id == id) then some .pending
        else statusGet acc id := by
    intro l
    induction l with
    | nil => intro acc; simp [List.foldl_nil]
    | cons n rest ih =>
      intro acc
      rw [List.foldl_cons, ih]
      by_cases h : n.id = id
      · subst h
        by_cases h2 : rest.any (fun m => m.id == n.id)
        · simp [h2]
        · simp only [List.any_cons, h2, beq_self_eq_true, Bool.true_or,
            if_true, Bool.or_false, if_false]
          rw [if_neg (by simp_all), statusGet_statusSet_self]
      · by_cases h2 : rest.any (fun m => m.id == id)
        · simp [h2]
        · simp only [List.any_cons, h2, Bool.or_false]
          rw [if_neg (by simp_all), if_neg (by simp_all),
            statusGet_statusSet_ne _ _ _ _ (fun e => h e.symm)]
  rw [progInit, main]
  simp [statusGet]

/-- One snapshot-to-snapshot status step a node may take. -/
def allowedStep (a b : NodeStatus) : Bool :=
  a == b || (a == .pending && (b == .running || b == .skipped)) ||
    (a == .running && (b == .success || b == .error))

/-- `chainAux prev l`: every consecutive step of `prev :: l` is allowed. -/
def chainAux : NodeStatus → List NodeStatus → Bool
  | _, [] => true
  | prev, s :: rest => allowedStep prev s && chainAux s rest

/-- The status sequence a node takes across snapshots is a (stuttering)
prefix of `pending → running → {success|error}` or `pending → skipped`. -/
def chainOK : List NodeStatus → Bool
  | [] => true
  | s :: rest => s == .pending && chainAux s rest

/-- The statuses a node takes across a list of snapshots (snapshots in
which the node does not occur contribute nothing). -/
def statusSeq (id : String) (snaps : List Snapshot) : List NodeStatus :=
  snaps.filterMap (fun sn => statusGet sn.nodes id)

theorem statusSeq_append (id : String) (s1 s2 : List Snapshot) :
    statusSeq id (s1 ++ s2) = statusSeq id s1 ++ statusSeq id s2 := by
  simp [statusSeq]

theorem chainAux_append_single (prev : NodeStatus) (l : List NodeStatus)
    (a b : NodeStatus) (h : chainAux prev l = true)
    (hlast : (prev :: l).getLast? = some a) (hab : allowedStep a b = true) :
    chainAux prev (l ++ [b]) = true := by
  induction l generalizing prev with
  | nil =>
    simp only [List.getLast?_singleton, Option.some.injEq] at hlast
    subst hlast
    simp [chainAux, hab]
  | cons s rest ih =>
    simp only [chainAux, Bool.and_eq_true] at h
    have hlast2 : (s :: rest).getLast? = some a := by
      rw [List.getLast?_cons_cons] at hlast
      exact hlast
    simp only [List.cons_append, chainAux, Bool.and_eq_true]
    exact ⟨h.1, ih s h.2 hlast2⟩

theorem chainOK_append_single (l : List NodeStatus) (a b : NodeStatus)
    (h : chainOK l = true) (hlast : l.getLast? = some a)
    (hab : allowedStep a b = true) : chainOK (l ++ [b]) = true := by
  cases l with
  | nil => simp at hlast
  | cons s rest =>
    simp only [chainOK, Bool.and_eq_true] at h
    simp only [List.cons_append, chainOK, Bool.and_eq_true]
    exact ⟨h.1, chainAux_append_single s rest a b h.2 hlast hab⟩

theorem chainOK_single_pending : chainOK [.pending] = true := by decide

/-! ### Skip-cascade, queue and list decomposition lemmas -/

/-- Relation between progress maps across `markDownstreamSkipped`: each
entry is unchanged or flipped from `pending` to `skipped`. -/
def SkipRel (p q : List (String × NodeStatus)) : Prop :=
  ∀ id, statusGet q id = statusGet p id ∨
    (statusGet p id = some .pending ∧ statusGet q id = some .skipped)

theorem skipRel_refl (p : List (String × NodeStatus)) : SkipRel p p :=
  fun _ => Or.inl rfl

theorem skipRel_trans {p q r : List (String × NodeStatus)}
    (h1 : SkipRel p q) (h2 : SkipRel q r) : SkipRel p r := by
  intro id
  rcases h2 id with he | ⟨hq, hr⟩
  · rw [he]
    exact h1 id
  · rcases h1 id with he2 | ⟨hp, hq2⟩
    · rw [he2] at hq
      exact Or.inr ⟨hq, hr⟩
    · rw [hq2] at hq
      exact absurd hq (by simp)

theorem skipRel_set_skipped {p : List (String × NodeStatus)} {id : String}
    (h : statusGet p id = some .pending) :
    SkipRel p (statusSet p id .skipped) := by
  intro id2
  by_cases h2 : id2 = id
  · subst h2
    exact Or.inr ⟨h, statusGet_statusSet_self _ _ _⟩
  · exact Or.inl (statusGet_statusSet_ne _ _ _ _ h2)

theorem foldlM_except_rel {α β : Type} (R : β → β → Prop)
    (hrefl : ∀ b, R b b) (htrans : ∀ a b c, R a b → R b c → R a c)
    (f : β → α → Except Unit β)
    (hf : ∀ b x b2, f b x = .ok b2 → R b b2) :
    ∀ (l : List α) (b q : β), l.foldlM f b = .ok q → R b q := by
  intro l
  induction l with
  | nil =>
    intro b q h
    simp only [List.foldlM_nil] at h
    cases h
    exact hrefl b
  | cons x rest ih =>
    intro b q h
    rw [List.foldlM_cons] at h
    cases hfx : f b x with
    | error e =>
      rw [hfx] at h
      exact Except.noConfusion h
    | ok b2 =>
      rw [hfx] at h
      exact htrans _ _ _ (hf b x b2 hfx) (ih b2 q h)

theorem markSkipped_skipRel (adj : String → List String) :
    ∀ (fuel : Nat) (prog : List (String × NodeStatus)) (nodeId : String)
      (q : List (String × NodeStatus)),
      markSkipped adj fuel prog nodeId = .ok q → SkipRel prog q := by
  intro fuel
  induction fuel with
  | zero =>
    intro prog nodeId q h
    exact absurd h (by simp [markSkipped])
  | succ f ih =>
    intro prog nodeId q h
    rw [markSkipped] at h
    refine foldlM_except_rel SkipRel skipRel_refl
      (fun a b c => skipRel_trans) _ ?_ _ _ _ h
    intro pr nid pr2 hstep
    cases hg : statusGet pr nid with
    | none =>
      rw [hg] at hstep
      exact absurd hstep (by simp)
    | some st =>
      rw [hg] at hstep
      have hstep2 : (if st = NodeStatus.pending then
          markSkipped adj f (statusSet pr nid .skipped) nid else pure pr) =
          .ok pr2 := hstep
      by_cases hp : st = .pending
      · rw [if_pos hp] at hstep2
        exact skipRel_trans (skipRel_set_skipped (hp ▸ hg)) (ih _ _ _ hstep2)
      · rw [if_neg hp] at hstep2
        cases hstep2
        exact skipRel_refl pr

theorem snoc_eq_append_cons {α : Type} {l pre post : List α} {a n : α}
    (h : l ++ [a] = pre ++ n :: post) :
    (pre = l ∧ n = a ∧ post = []) ∨
      ∃ post2, post = post2 ++ [a] ∧ l = pre ++ n :: post2 := by
  induction pre generalizing l with
  | nil =>
    cases l with
    | nil =>
      simp only [List.nil_append] at h
      rw [List.cons.injEq] at h
      exact Or.inl ⟨rfl, h.1.symm, h.2.symm⟩
    | cons b bl =>
      simp only [List.cons_append, List.nil_append] at h
      rw [List.cons.injEq] at h
      exact Or.inr ⟨bl, h.2.symm, by rw [List.nil_append, h.1]⟩
  | cons p pre2 ih =>
    cases l with
    | nil =>
      simp only [List.nil_append, List.cons_append] at h
      rw [List.cons.injEq] at h
      exact absurd h.2.symm (List.append_ne_nil_of_right_ne_nil _
        (List.cons_ne_nil _ _))
    | cons b bl =>
      simp only [List.cons_append] at h
      rw [List.cons.injEq] at h
      rcases ih h.2 with ⟨h1, h2, h3⟩ | ⟨post2, h1, h2⟩
      · exact Or.inl ⟨by rw [h.1, h1], h2, h3⟩
      · exact Or.inr ⟨post2, h1, by rw [List.cons_append, h.1, h2]⟩

theorem enqueue_mono (wf : Workflow) (visited1 : List String) :
    ∀ (l : List String) (q : List (Option WNode)) (x : Option WNode),
      x ∈ q → x ∈ l.foldl (enqueueStep wf visited1) q := by
  intro l
  induction l with
  | nil => intro q x hx; exact hx
  | cons nid rest ih =>
    intro q x hx
    rw [List.foldl_cons]
    refine ih _ x ?_
    unfold enqueueStep
    split_ifs <;> simp [hx]

theorem enqueue_mem (wf : Workflow) (visited1 : List String) :
    ∀ (l : List String) (q : List (Option WNode)) (x : Option WNode),
      x ∈ l.foldl (enqueueStep wf visited1) q → x ∈ q ∨
        ∃ nid ∈ l, x = nodeMapGet wf nid ∧
          visited1.contains nid = false ∧
          (getParents wf.edges nid).all (fun p => visited1.contains p) = true := by
  intro l
  induction l with
  | nil => intro q x hx; exact Or.inl hx
  | cons nid rest ih =>
    intro q x hx
    rw [List.foldl_cons] at hx
    rcases ih _ x hx with hq | ⟨nid2, hmem, hrest⟩
    · unfold enqueueStep at hq
      split_ifs at hq with h1 h2
      · exact Or.inl hq
      · rw [List.mem_append] at hq
        rcases hq with hq | hq
        · exact Or.inl hq
        · rw [List.mem_singleton] at hq
          exact Or.inr ⟨nid, by simp, hq, by simpa using h1, h2⟩
      · exact Or.inl hq
    · exact Or.inr ⟨nid2, by simp [hmem], hrest⟩

theorem enqueue_push (wf : Workflow) (visited1 : List String) :
    ∀ (l : List String) (q : List (Option WNode)) (nid : String),
      nid ∈ l → visited1.contains nid = false →
      (getParents wf.edges nid).all (fun p => visited1.contains p) = true →
      nodeMapGet wf nid ∈ l.foldl (enqueueStep wf visited1) q := by
  intro l
  induction l with
  | nil => intro q nid h; simp at h
  | cons nid2 rest ih =>
    intro q nid hmem hvis hpar
    rw [List.foldl_cons]
    rw [List.mem_cons] at hmem
    rcases hmem with he | hmem
    · subst he
      refine enqueue_mono wf visited1 rest _ _ ?_
      unfold enqueueStep
      rw [hvis, if_neg (by simp), if_pos hpar]
      simp
    · exact ih _ nid hmem hvis hpar

theorem nodeMapGet_mem {wf : Workflow} {id : String} {n : WNode}
    (h : nodeMapGet wf id = some n) : n ∈ wf.nodes ∧ n.id = id := by
  unfold nodeMapGet at h
  have h1 := List.mem_of_find?_eq_some h
  have h2 := List.find?_some h
  rw [List.mem_reverse] at h1
  rw [beq_iff_eq] at h2
  exact ⟨h1, h2⟩

theorem nodeMapGet_isSome {wf : Workflow} {id : String}
    (h : ∃ n ∈ wf.nodes, n.id = id) : (nodeMapGet wf id).isSome := by
  unfold nodeMapGet
  rw [List.find?_isSome]
  obtain ⟨n, hn, he⟩ := h
  exact ⟨n, by rw [List.mem_reverse]; exact hn, by rw [beq_iff_eq]; exact he⟩

theorem getParents_nil_iff (edges : List WEdge) (id : String) :
    getParents edges id = [] ↔ inDeg edges id = 0 := by
  unfold getParents inDeg
  simp

/-! ### Snapshot-extension lemmas -/

/-- Componentwise allowed progress step between two progress maps. -/
def ProgStep (p q : List (String × NodeStatus)) : Prop :=
  ∀ id, (statusGet p id = none ∧ statusGet q id = none) ∨
    ∃ a b, statusGet p id = some a ∧ statusGet q id = some b ∧
      allowedStep a b = true

theorem progStep_refl (p : List (String × NodeStatus)) : ProgStep p p := by
  intro id
  cases h : statusGet p id with
  | none => exact Or.inl ⟨rfl, rfl⟩
  | some a => exact Or.inr ⟨a, a, rfl, rfl, by simp [allowedStep]⟩

theorem progStep_set {prog : List (String × NodeStatus)} {id : String}
    {old new : NodeStatus} (hget : statusGet prog id = some old)
    (hallow : allowedStep old new = true) :
    ProgStep prog (statusSet prog id new) := by
  intro id2
  by_cases h : id2 = id
  · subst h
    exact Or.inr ⟨old, new, hget, statusGet_statusSet_self _ _ _, hallow⟩
  · rw [statusGet_statusSet_ne _ _ _ _ h]
    exact progStep_refl prog id2

theorem progStep_of_skipRel {p q : List (String × NodeStatus)}
    (h : SkipRel p q) : ProgStep p q := by
  intro id
  rcases h id with he | ⟨hp, hq⟩
  · rw [he]
    exact progStep_refl p id
  · exact Or.inr ⟨.pending, .skipped, hp, hq, by decide⟩

/-- Composition used on the failure path: mark the current node with a
non-`pending` status, then cascade skips; the result is still one allowed
snapshot step from the starting map. -/
theorem progStep_set_then_skip {prog : List (String × NodeStatus)}
    {id : String} {old new : NodeStatus}
    (hget : statusGet prog id = some old)
    (hallow : allowedStep old new = true) (hnewp : new ≠ .pending)
    {q : List (String × NodeStatus)}
    (hskip : SkipRel (statusSet prog id new) q) : ProgStep prog q := by
  intro id2
  by_cases h : id2 = id
  · subst h
    rcases hskip id2 with he | ⟨hp, _⟩
    · rw [statusGet_statusSet_self] at he
      exact Or.inr ⟨old, new, hget, he, hallow⟩
    · rw [statusGet_statusSet_self] at hp
      rw [Option.some.injEq] at hp
      exact absurd hp hnewp
  · rcases hskip id2 with he | ⟨hp, hq⟩
    · rw [statusGet_statusSet_ne _ _ _ _ h] at he
      rw [he]
      exact progStep_refl prog id2
    · rw [statusGet_statusSet_ne _ _ _ _ h] at hp
      exact Or.inr ⟨.pending, .skipped, hp, hq, by decide⟩

/-- The three snapshot-list invariants, packaged. -/
def SnapsInv (prog : List (String × NodeStatus)) (snaps : List Snapshot) :
    Prop :=
  (∀ id, chainOK (statusSeq id snaps) = true) ∧
  (∀ id s, statusGet prog id = some s →
    (statusSeq id snaps).getLast? = some s) ∧
  (∀ id, statusGet prog id = none → statusSeq id snaps = [])

theorem statusSeq_single (id : String) (sn : Snapshot) :
    statusSeq id [sn] = match statusGet sn.nodes id with
      | some s => [s]
      | none => [] := by
  cases h : statusGet sn.nodes id <;> simp [statusSeq, h]

theorem snapsInv_extend {prog q : List (String × NodeStatus)}
    {snaps : List Snapshot} (hinv : SnapsInv prog snaps)
    (hstep : ProgStep prog q) (σ : ExecStatus) (e : Option String) :
    SnapsInv q (snaps ++ [{ status := σ, nodes := q, error := e }]) := by
  obtain ⟨hchain, hlast, hnone⟩ := hinv
  refine ⟨?_, ?_, ?_⟩
  · intro id
    rw [statusSeq_append, statusSeq_single]
    rcases hstep id with ⟨hp, hq⟩ | ⟨a, b, hp, hq, hab⟩
    · simp only [hq]
      simpa using hchain id
    · simp only [hq]
      exact chainOK_append_single _ a b (hchain id) (hlast id a hp) hab
  · intro id s hs
    rw [statusSeq_append, statusSeq_single]
    rcases hstep id with ⟨hp, hq⟩ | ⟨a, b, hp, hq, hab⟩
    · rw [hq] at hs
      exact absurd hs (by simp)
    · rw [hq] at hs
      rw [Option.some.injEq] at hs
      subst hs
      simp only [hq]
      exact List.getLast?_concat _
  · intro id hs
    rw [statusSeq_append, statusSeq_single]
    rcases hstep id with ⟨hp, hq⟩ | ⟨a, b, hp, hq, hab⟩
    · simp only [hq]
      rw [hnone id hp]
      rfl
    · rw [hq] at hs
      exact absurd hs (by simp)

theorem snapsInv_extend_empty {snaps : List Snapshot}
    (hchain : ∀ id, chainOK (statusSeq id snaps) = true)
    (σ : ExecStatus) (e : Option String) :
    ∀ id, chainOK (statusSeq id
      (snaps ++ [{ status := σ, nodes := [], error := e }])) = true := by
  intro id
  rw [statusSeq_append, statusSeq_single]
  simp only [statusGet]
  simpa using hchain id

/-! ### The traversal-loop invariant and the master induction -/

/-- Invariant of the traversal loop, relative to the workflow and the
initial (seeded) context `ctx0`. -/
structure LoopInv (wf : Workflow) (ctx0 : List (String × Json))
    (st : LoopSt) : Prop where
  qNodes : ∀ n : WNode, some n ∈ st.queue → n ∈ wf.nodes
  qGate : ∀ n : WNode, some n ∈ st.queue →
    ∀ p ∈ getParents wf.edges n.id, p ∈ st.visited
  visNodes : ∀ id ∈ st.visited, id ∈ wf.nodes.map WNode.id
  visCtx : ∀ id ∈ st.visited, (fieldGet st.ctx id).isSome = true
  ctxKeys : ∀ id, (fieldGet st.ctx id).isSome = true →
    id ∈ st.visited ∨ (fieldGet ctx0 id).isSome = true
  ctx0Sub : ∀ id, (fieldGet ctx0 id).isSome = true →
    (fieldGet st.ctx id).isSome = true
  traceVis : ∀ id, id ∈ st.trace ↔ id ∈ st.visited
  traceNodup : st.trace.Nodup
  traceGate : ∀ pre n post, st.trace = pre ++ n :: post →
    ∀ p ∈ getParents wf.edges n, p ∈ pre
  kahn : ∀ n ∈ wf.nodes, (∀ p ∈ getParents wf.edges n.id, p ∈ st.visited) →
    n.id ∈ st.visited ∨ ∃ m : WNode, some m ∈ st.queue ∧ m.id = n.id
  progKeys : ∀ id, (statusGet st.prog id).isSome = true ↔
    id ∈ wf.nodes.map WNode.id
  visSucc : ∀ id ∈ st.visited, statusGet st.prog id = some .success
  unvisPending : ∀ id ∈ wf.nodes.map WNode.id, id ∉ st.visited →
    statusGet st.prog id = some .pending
  snaps : SnapsInv st.prog st.snaps

/-- What the master induction establishes about a finished run. -/
def RunConclusion (wf : Workflow) (ctx0 : List (String × Json))
    (res : RunResult) : Prop :=
  (∀ id, chainOK (statusSeq id res.snapshots) = true) ∧
  res.trace.Nodup ∧
  (∀ pre n post, res.trace = pre ++ n :: post →
    ∀ p ∈ getParents wf.edges n, p ∈ pre) ∧
  (res.status = .completed → ∃ (ctxF : List (String × Json))
      (visF : List String),
    res.data = some ctxF ∧
    (∀ id ∈ visF, id ∈ wf.nodes.map WNode.id) ∧
    (∀ id, (fieldGet ctxF id).isSome = true ↔
      (id ∈ visF ∨ (fieldGet ctx0 id).isSome = true)) ∧
    (∀ n ∈ wf.nodes, (∀ p ∈ getParents wf.edges n.id, p ∈ visF) →
      n.id ∈ visF))

theorem runConclusion_unexpected (wf : Workflow)
    (ctx0 : List (String × Json)) (st : LoopSt) (msg : String)
    (hchain : ∀ id, chainOK (statusSeq id st.snaps) = true)
    (hnodup : st.trace.Nodup)
    (hgate : ∀ pre n post, st.trace = pre ++ n :: post →
      ∀ p ∈ getParents wf.edges n, p ∈ pre) :
    RunConclusion wf ctx0 (unexpectedResult st msg) := by
  refine ⟨?_, hnodup, hgate, ?_⟩
  · intro id
    exact snapsInv_extend_empty hchain _ _ id
  · intro h
    exact ExecStatus.noConfusion h

theorem runLoop_master (eff : WNode → List (String × Json) → Except String Json)
    (now : String) (wf : Workflow) (ctx0 : List (String × Json)) :
    ∀ (fuel : Nat) (st : LoopSt), LoopInv wf ctx0 st →
      RunConclusion wf ctx0 (runLoop eff now wf fuel st) := by
  intro fuel
  induction fuel with
  | zero =>
    intro st inv
    exact runConclusion_unexpected wf ctx0 st _ inv.snaps.1 inv.traceNodup
      inv.traceGate
  | succ fuel ih =>
    intro st inv
    obtain ⟨queue, visited, ctx, prog, snaps, trace⟩ := st
    cases queue with
    | nil =>
      -- completed
      refine ⟨?_, inv.traceNodup, inv.traceGate, ?_⟩
      · intro id
        exact (snapsInv_extend inv.snaps (progStep_refl prog) .completed
          none).1 id
      · intro _
        refine ⟨ctx, visited, rfl, inv.visNodes, ?_, ?_⟩
        · intro id
          constructor
          · exact inv.ctxKeys id
          · intro h
            rcases h with h | h
            · exact inv.visCtx id h
            · exact inv.ctx0Sub id h
        · intro n hn hpar
          rcases inv.kahn n hn hpar with h | ⟨m, hm, _⟩
          · exact h
          · exact absurd hm (by simp)
    | cons hd qrest =>
      cases hd with
      | none =>
        exact runConclusion_unexpected wf ctx0 _ _ inv.snaps.1 inv.traceNodup
          inv.traceGate
      | some cur =>
        by_cases hvis : visited.contains cur.id
        · -- already visited: drop from queue
          simp only [runLoop, hvis, if_true]
          refine ih _ ?_
          refine ⟨?_, ?_, inv.visNodes, inv.visCtx, inv.ctxKeys, inv.ctx0Sub,
            inv.traceVis, inv.traceNodup, inv.traceGate, ?_, inv.progKeys,
            inv.visSucc, inv.unvisPending, inv.snaps⟩
          · intro n hn
            exact inv.qNodes n (by simp [hn])
          · intro n hn
            exact inv.qGate n (by simp [hn])
          · intro n hn hpar
            rcases inv.kahn n hn hpar with h | ⟨m, hm, he⟩
            · exact Or.inl h
            · rw [List.mem_cons] at hm
              rcases hm with hm | hm
              · rw [Option.some.injEq] at hm
                subst hm
                rw [← he]
                exact Or.inl (by simpa using hvis)
              · exact Or.inr ⟨m, hm, he⟩
        · -- execute the node
          have hcurnodes : cur ∈ wf.nodes := inv.qNodes cur (by simp)
          have hcurid : cur.id ∈ wf.nodes.map WNode.id := by
            exact List.mem_map_of_mem _ hcurnodes
          have hcurvis : cur.id ∉ visited := by simpa using hvis
          have hcurpend : statusGet prog cur.id = some .pending :=
            inv.unvisPending cur.id hcurid hcurvis
          have hstep1 : ProgStep prog (statusSet prog cur.id .running) :=
            progStep_set hcurpend (by decide)
          have hsnaps1 := snapsInv_extend inv.snaps hstep1 .running none
          have htrace1nodup : (trace ++ [cur.id]).Nodup := by
            rw [List.nodup_append]
            refine ⟨inv.traceNodup, List.nodup_singleton _, ?_⟩
            intro a ha hb
            rw [List.mem_singleton] at hb
            rw [hb] at ha
            exact hcurvis ((inv.traceVis cur.id).mp ha)
          have hcurgate : ∀ p ∈ getParents wf.edges cur.id, p ∈ visited :=
            inv.qGate cur (by simp)
          have htrace1gate : ∀ pre n post,
              trace ++ [cur.id] = pre ++ n :: post →
              ∀ p ∈ getParents wf.edges n, p ∈ pre := by
            intro pre n post hdec p hp
            rcases snoc_eq_append_cons hdec with ⟨h1, h2, _⟩ | ⟨post2, _, h2⟩
            · subst h1
              subst h2
              exact (inv.traceVis p).mpr (hcurgate p hp)
            · exact inv.traceGate pre n post2 h2 p hp
          simp only [runLoop, hvis, if_false, Bool.false_eq_true]
          cases hex : executeNode eff now cur ctx with
          | ok out =>
            refine ih _ ?_
            have hstep2 : ProgStep (statusSet prog cur.id .running)
                (statusSet (statusSet prog cur.id .running) cur.id .success) :=
              progStep_set (statusGet_statusSet_self _ _ _) (by decide)
            refine ⟨?_, ?_, ?_, ?_, ?_, ?_, ?_, htrace1nodup, htrace1gate,
              ?_, ?_, ?_, ?_, snapsInv_extend hsnaps1 hstep2 .running none⟩
            · -- qNodes
              intro n hn
              rcases enqueue_mem wf _ _ _ _ hn with hq |
                ⟨nid, _, heq, _, _⟩
              · exact inv.qNodes n (by simp [hq])
              · exact (nodeMapGet_mem heq.symm).1
            · -- qGate
              intro n hn p hp
              rcases enqueue_mem wf _ _ _ _ hn with hq |
                ⟨nid, _, heq, _, hall⟩
              · exact List.mem_append_left _ (inv.qGate n (by simp [hq]) p hp)
              · have hid := (nodeMapGet_mem heq.symm).2
                rw [hid] at hp
                rw [List.all_eq_true] at hall
                have := hall p hp
                simpa using this
            · -- visNodes
              intro id hid
              rw [List.mem_append, List.mem_singleton] at hid
              rcases hid with hid | hid
              · exact inv.visNodes id hid
              · rw [hid]
                exact hcurid
            · -- visCtx
              intro id hid
              by_cases he : id = cur.id
              · subst he
                rw [fieldGet_fieldSet_self]
                rfl
              · rw [fieldGet_fieldSet_ne _ _ _ _ he]
                rw [List.mem_append, List.mem_singleton] at hid
                rcases hid with hid | hid
                · exact inv.visCtx id hid
                · exact absurd hid he
            · -- ctxKeys
              intro id hsome
              by_cases he : id = cur.id
              · rw [he]
                exact Or.inl (List.mem_append_right _ (by simp))
              · rw [fieldGet_fieldSet_ne _ _ _ _ he] at hsome
                rcases inv.ctxKeys id hsome with h | h
                · exact Or.inl (List.mem_append_left _ h)
                · exact Or.inr h
            · -- ctx0Sub
              intro id hsome
              by_cases he : id = cur.id
              · subst he
                rw [fieldGet_fieldSet_self]
                rfl
              · rw [fieldGet_fieldSet_ne _ _ _ _ he]
                exact inv.ctx0Sub id hsome
            · -- traceVis
              intro id
              simp only [List.mem_append, List.mem_singleton,
                inv.traceVis id]
            · -- kahn
              intro n hn hpar
              by_cases hold : ∀ p ∈ getParents wf.edges n.id, p ∈ visited
              · rcases inv.kahn n hn hold with h | ⟨m, hm, he⟩
                · exact Or.inl (List.mem_append_left _ h)
                · rw [List.mem_cons] at hm
                  rcases hm with hm | hm
                  · rw [Option.some.injEq] at hm
                    subst hm
                    rw [← he]
                    exact Or.inl (List.mem_append_right _ (by simp))
                  · exact Or.inr ⟨m, enqueue_mono wf _ _ _ _ hm, he⟩
              · push_neg at hold
                obtain ⟨p0, hp0, hp0v⟩ := hold
                have hp0v1 := hpar p0 hp0
                rw [List.mem_append, List.mem_singleton] at hp0v1
                rcases hp0v1 with h | h
                · exact absurd h hp0v
                · subst h
                  by_cases hnv : n.id ∈ visited ++ [cur.id]
                  · exact Or.inl hnv
                  · have hadj : n.id ∈ adjOf wf cur.id := by
                      unfold adjOf
                      rw [if_pos (by
                        rw [List.any_eq_true]
                        exact ⟨cur, hcurnodes, by simp⟩)]
                      unfold getParents at hp0
                      rw [List.mem_map] at hp0 ⊢
                      obtain ⟨e, hemem, hesrc⟩ := hp0
                      rw [List.mem_filter] at hemem
                      refine ⟨e, List.mem_filter.mpr
                        ⟨hemem.1, by simp [hesrc]⟩, ?_⟩
                      have ht := hemem.2
                      rw [beq_iff_eq] at ht
                      rw [ht]
                    have hpush := enqueue_push wf (visited ++ [cur.id]) _
                      qrest n.id hadj (by simpa using hnv) (by
                        rw [List.all_eq_true]
                        intro p hpmem
                        simpa using hpar p hpmem)
                    cases hm : nodeMapGet wf n.id with
                    | none =>
                      have := nodeMapGet_isSome ⟨n, hn, rfl⟩
                      rw [hm] at this
                      exact absurd this (by simp)
                    | some m =>
                      rw [hm] at hpush
                      exact Or.inr ⟨m, hpush, (nodeMapGet_mem hm).2⟩
            · -- progKeys
              intro id
              by_cases he : id = cur.id
              · subst he
                rw [statusGet_statusSet_self]
                simp [hcurid]
              · rw [statusGet_statusSet_ne _ _ _ _ he,
                  statusGet_statusSet_ne _ _ _ _ he]
                exact inv.progKeys id
            · -- visSucc
              intro id hid
              by_cases he : id = cur.id
              · subst he
                rw [statusGet_statusSet_self]
              · rw [statusGet_statusSet_ne _ _ _ _ he,
                  statusGet_statusSet_ne _ _ _ _ he]
                rw [List.mem_append, List.mem_singleton] at hid
                rcases hid with hid | hid
                · exact inv.visSucc id hid
                · exact absurd hid he
            · -- unvisPending
              intro id hid hnv
              rw [List.mem_append, List.mem_singleton] at hnv
              push_neg at hnv
              rw [statusGet_statusSet_ne _ _ _ _ hnv.2,
                statusGet_statusSet_ne _ _ _ _ hnv.2]
              exact inv.unvisPending id hid hnv.1
          | error msg =>
            cases hms : markSkipped (adjOf wf) (wf.nodes.length + 1)
                (statusSet (statusSet prog cur.id .running) cur.id .error)
                cur.id with
            | error e =>
              refine runConclusion_unexpected wf ctx0 _ _ ?_ htrace1nodup
                htrace1gate
              intro id
              exact hsnaps1.1 id
            | ok prog3 =>
              have hstep13 : ProgStep (statusSet prog cur.id .running) prog3 :=
                progStep_set_then_skip (statusGet_statusSet_self _ _ _)
                  (by decide) (by decide)
                  (markSkipped_skipRel (adjOf wf) _ _ _ _ hms)
              refine ⟨?_, htrace1nodup, htrace1gate, ?_⟩
              · intro id
                exact (snapsInv_extend hsnaps1 hstep13 .failed (some msg)).1 id
              · intro h
                exact ExecStatus.noConfusion h
/-! ### From `executeWorkflow` to the master invariant -/

theorem fieldGet_fieldSet_isSome (fields : List (String × Json))
    (k id : String) (v : Json) :
    (fieldGet (fieldSet fields k v) id).isSome = true ↔
      ((fieldGet fields id).isSome = true ∨ id = k) := by
  by_cases h : id = k
  · subst h
    rw [fieldGet_fieldSet_self]
    simp
  · rw [fieldGet_fieldSet_ne _ _ _ _ h]
    simp [h]

theorem seedContext_keys (sns : List WNode) (trigger : Option Json)
    (id : String) (h : (fieldGet (seedContext sns trigger) id).isSome = true) :
    ∃ n ∈ sns, n.id = id := by
  cases trigger with
  | none => exact absurd h (by simp [seedContext, fieldGet])
  | some t =>
    have main : ∀ (l : List WNode) (ctx : List (String × Json)),
        (fieldGet (l.foldl (fun c n =>
          if n.type == "webhook" then fieldSet c n.id t else c) ctx)
            id).isSome = true →
        (∃ n ∈ l, n.id = id) ∨ (fieldGet ctx id).isSome = true := by
      intro l
      induction l with
      | nil => intro ctx hx; exact Or.inr hx
      | cons m rest ih =>
        intro ctx hx
        rw [List.foldl_cons] at hx
        rcases ih _ hx with ⟨n, hn, he⟩ | hx2
        · exact Or.inl ⟨n, by simp [hn], he⟩
        · by_cases hw : m.type == "webhook"
          · rw [if_pos hw] at hx2
            rcases (fieldGet_fieldSet_isSome ctx m.id id t).mp hx2 with
              hx3 | hx3
            · exact Or.inr hx3
            · exact Or.inl ⟨m, by simp, hx3.symm⟩
          · rw [if_neg hw] at hx2
            exact Or.inr hx2
    rcases main sns [] h with hx | hx
    · exact hx
    · exact absurd hx (by simp [fieldGet])

theorem seedContext_get (sns : List WNode) (t : Json) (n : WNode)
    (hn : n ∈ sns) (hw : n.type = "webhook") :
    fieldGet (seedContext sns (some t)) n.id = some t := by
  have main : ∀ (l : List WNode) (ctx : List (String × Json)),
      ((n ∈ l) ∨ fieldGet ctx n.id = some t) →
      fieldGet (l.foldl (fun c m =>
        if m.type == "webhook" then fieldSet c m.id t else c) ctx)
          n.id = some t := by
    intro l
    induction l with
    | nil =>
      intro ctx hx
      rcases hx with hx | hx
      · exact absurd hx (List.not_mem_nil n)
      · exact hx
    | cons m rest ih =>
      intro ctx hx
      rw [List.foldl_cons]
      rcases hx with hx | hx
      · rw [List.mem_cons] at hx
        rcases hx with hx | hx
        · subst hx
          refine ih _ (Or.inr ?_)
          rw [if_pos (by simp [hw])]
          exact fieldGet_fieldSet_self _ _ _
        · exact ih _ (Or.inl hx)
      · refine ih _ (Or.inr ?_)
        by_cases hmw : m.type == "webhook"
        · rw [if_pos hmw]
          by_cases he : n.id = m.id
          · rw [he]
            exact fieldGet_fieldSet_self _ _ _
          · rw [fieldGet_fieldSet_ne _ _ _ _ he]
            exact hx
        · rw [if_neg hmw]
          exact hx
  exact main sns [] (Or.inl hn)

theorem executeWorkflow_master
    (eff : WNode → List (String × Json) → Except String Json) (now : String)
    (wf : Workflow) (trigger : Option Json)
    (hval : firstValidationError wf.nodes = none) :
    RunConclusion wf
      (seedContext (wf.nodes.filter (fun n => inDeg wf.edges n.id == 0))
        trigger)
      (executeWorkflow eff now wf trigger) := by
  rw [executeWorkflow, hval]
  apply runLoop_master
  refine ⟨?_, ?_, ?_, ?_, ?_, ?_, ?_, List.nodup_nil, ?_, ?_, ?_, ?_, ?_, ?_⟩
  · intro n hn
    rw [List.mem_map] at hn
    obtain ⟨m, hm, he⟩ := hn
    rw [Option.some.injEq] at he
    subst he
    exact (List.mem_filter.mp hm).1
  · intro n hn p hp
    rw [List.mem_map] at hn
    obtain ⟨m, hm, he⟩ := hn
    rw [Option.some.injEq] at he
    subst he
    have hdeg := (List.mem_filter.mp hm).2
    rw [beq_iff_eq] at hdeg
    rw [(getParents_nil_iff wf.edges m.id).mpr hdeg] at hp
    exact absurd hp (List.not_mem_nil _)
  · intro id hid
    exact absurd hid (List.not_mem_nil _)
  · intro id hid
    exact absurd hid (List.not_mem_nil _)
  · intro id h
    exact Or.inr h
  · intro id h
    exact h
  · intro id
    rfl
  · intro pre n post h
    exact absurd h.symm (List.append_ne_nil_of_right_ne_nil _
      (List.cons_ne_nil _ _))
  · intro n hn hpar
    have hpnil : getParents wf.edges n.id = [] := by
      cases hpp : getParents wf.edges n.id with
      | nil => rfl
      | cons p ps =>
        have := hpar p (by rw [hpp]; simp)
        exact absurd this (List.not_mem_nil _)
    have hdeg := (getParents_nil_iff wf.edges n.id).mp hpnil
    refine Or.inr ⟨n, ?_, rfl⟩
    rw [List.mem_map]
    exact ⟨n, List.mem_filter.mpr ⟨hn, by simp [hdeg]⟩, rfl⟩
  · intro id
    rw [statusGet_progInit]
    constructor
    · intro h
      split_ifs at h with hany
      · rw [List.any_eq_true] at hany
        obtain ⟨n, hn, he⟩ := hany
        rw [beq_iff_eq] at he
        rw [List.mem_map]
        exact ⟨n, hn, he⟩
      · exact absurd h (by simp)
    · intro h
      rw [List.mem_map] at h
      obtain ⟨n, hn, he⟩ := h
      rw [if_pos (by rw [List.any_eq_true]; exact ⟨n, hn, by simp [he]⟩)]
      rfl
  · intro id hid
    exact absurd hid (List.not_mem_nil _)
  · intro id hid _
    rw [List.mem_map] at hid
    obtain ⟨n, hn, he⟩ := hid
    rw [statusGet_progInit,
      if_pos (by rw [List.any_eq_true]; exact ⟨n, hn, by simp [he]⟩)]
  · refine ⟨?_, ?_, ?_⟩
    · intro id
      rw [statusSeq_single]
      cases h : statusGet (progInit wf.nodes) id with
      | none => simp [chainOK]
      | some st =>
        rw [statusGet_progInit] at h
        split_ifs at h with hany
        rw [Option.some.injEq] at h
        rw [← h]
        exact chainOK_single_pending
    · intro id st h
      simp [statusSeq_single, h]
    · intro id h
      simp [statusSeq_single, h]

/-! ### DAG hypotheses and the completion endgame -/

/-- A topological order for the workflow: every node id occurs in `order`
and every edge goes strictly forward.  The existence of such an order is
the standard witness that the edge relation is acyclic. -/
def isTopoOrder (order : List String) (wf : Workflow) : Bool :=
  wf.nodes.all (fun n => order.contains n.id) &&
    wf.edges.all (fun e =>
      Nat.blt (order.indexOf e.source) (order.indexOf e.target))

/-- Every edge references existing node ids. -/
def edgesValid (wf : Workflow) : Bool :=
  wf.edges.all (fun e => wf.nodes.any (fun n => n.id == e.source) &&
    wf.nodes.any (fun n => n.id == e.target))

theorem topo_all_visited (wf : Workflow) (order : List String)
    (htopo : isTopoOrder order wf = true) (hvalid : edgesValid wf = true)
    (visF : List String)
    (hkahn : ∀ n ∈ wf.nodes,
      (∀ p ∈ getParents wf.edges n.id, p ∈ visF) → n.id ∈ visF) :
    ∀ n ∈ wf.nodes, n.id ∈ visF := by
  unfold isTopoOrder at htopo
  rw [Bool.and_eq_true, List.all_eq_true, List.all_eq_true] at htopo
  unfold edgesValid at hvalid
  rw [List.all_eq_true] at hvalid
  have main : ∀ (k : Nat) (id : String), id ∈ wf.nodes.map WNode.id →
      order.indexOf id < k → id ∈ visF := by
    intro k
    induction k with
    | zero => intro id _ h; omega
    | succ k ih =>
      intro id hid hlt
      rw [List.mem_map] at hid
      obtain ⟨n, hn, he⟩ := hid
      subst he
      refine hkahn n hn ?_
      intro p hp
      unfold getParents at hp
      rw [List.mem_map] at hp
      obtain ⟨e, hemem, hesrc⟩ := hp
      rw [List.mem_filter] at hemem
      have htgt := hemem.2
      rw [beq_iff_eq] at htgt
      have hlt2 := htopo.2 e hemem.1
      have hlt3 : order.indexOf e.source < order.indexOf e.target := by
        simpa [Nat.blt] using hlt2
      rw [htgt, hesrc] at hlt3
      have hpid : p ∈ wf.nodes.map WNode.id := by
        have hv := hvalid e hemem.1
        rw [Bool.and_eq_true, List.any_eq_true] at hv
        obtain ⟨m, hm, hme⟩ := hv.1
        rw [beq_iff_eq] at hme
        rw [List.mem_map]
        exact ⟨m, hm, by rw [hme, hesrc]⟩
      exact ih p hpid (by omega)
  intro n hn
  have hcont := htopo.1 n hn
  refine main order.length n.id (List.mem_map_of_mem _ hn) ?_
  rw [List.indexOf_lt_length]
  simpa using hcont

/-! ## Concrete instances used by the claim theorems -/

/-- Three bytes encoding a character's code point (valid code points fit in
24 bits). -/
def char3Bytes (c : Char) : List Nat :=
  [c.toNat % 256, c.toNat / 256 % 256, c.toNat / 65536]

/-- A demonstration AES-256-GCM instance for concrete runs: zero IV, a
constant auth tag, and the plaintext's code points as ciphertext bytes. -/
def demoGcm : GcmCipher :=
  { iv := List.replicate 12 0,
    ctBytes := fun s => (s.data.map char3Bytes).flatten,
    tagBytes := fun _ => List.replicate 16 7 }

/-- Inverse of the byte encoding of `demoGcm`. -/
def demoDecChars : List Nat → List Char
  | a :: b :: d :: rest =>
    Char.ofNat (a + 256 * b + 65536 * d) :: demoDecChars rest
  | _ => []

/-- The decipher oracle matching `demoGcm`: authenticates the demo IV and
tag and decodes the byte groups. -/
def demoDec (iv tag ct : List Nat) : Option String :=
  if iv = List.replicate 12 0 ∧ tag = List.replicate 16 7 then
    some (String.mk (demoDecChars ct))
  else none

theorem charToNat_lt (c : Char) : c.toNat < 1114112 := by
  have hv := c.valid
  have he : c.toNat = c.val.toNat := rfl
  rcases hv with hv | ⟨hv1, hv2⟩ <;> omega

theorem demoDecChars_char3 (cs : List Char) :
    demoDecChars ((cs.map char3Bytes).flatten) = cs := by
  induction cs with
  | nil => rfl
  | cons c rest ih =>
    rw [List.map_cons, List.flatten_cons]
    show demoDecChars (c.toNat % 256 :: c.toNat / 256 % 256 ::
      c.toNat / 65536 :: (rest.map char3Bytes).flatten) = c :: rest
    rw [demoDecChars, ih]
    have hx : c.toNat % 256 + 256 * (c.toNat / 256 % 256) +
        65536 * (c.toNat / 65536) = c.toNat := by omega
    rw [hx, Char.ofNat_toNat]

theorem demoDec_demoGcm (s : String) :
    demoDec demoGcm.iv (demoGcm.tagBytes s) (demoGcm.ctBytes s) = some s := by
  rw [demoDec, if_pos ⟨rfl, rfl⟩]
  show some (String.mk (demoDecChars ((s.data.map char3Bytes).flatten))) =
    some s
  rw [demoDecChars_char3]

theorem demoGcm_bytes (s : String) :
    ∀ x ∈ demoGcm.iv ++ demoGcm.tagBytes s ++ demoGcm.ctBytes s,
      x < 256 := by
  intro x hx
  rw [List.mem_append, List.mem_append] at hx
  rcases hx with (hx | hx) | hx
  · rw [List.eq_of_mem_replicate hx]
    omega
  · rw [List.eq_of_mem_replicate hx]
    omega
  · rw [show demoGcm.ctBytes s = (s.data.map char3Bytes).flatten from rfl,
      List.mem_flatten] at hx
    obtain ⟨l, hl, hxl⟩ := hx
    rw [List.mem_map] at hl
    obtain ⟨c, hc, he⟩ := hl
    subst he
    have hlt := charToNat_lt c
    rw [show char3Bytes c =
      [c.toNat % 256, c.toNat / 256 % 256, c.toNat / 65536] from rfl] at hxl
    simp only [List.mem_cons, List.not_mem_nil, or_false] at hxl
    rcases hxl with h | h | h <;> subst h <;> omega

/-- A handler oracle that always succeeds. -/
def okOracle : WNode → List (String × Json) → Except String Json :=
  fun _ _ => Except.ok (Json.bool true)

def webhookNode (id : String) : WNode :=
  { id := id, type := "webhook", data := [] }

def transformNode (id : String) : WNode :=
  { id := id, type := "transform", data := [] }

/-- Two webhook nodes on a two-cycle `A → B → A`. -/
def cycleWf : Workflow :=
  { id := 1, nodes := [webhookNode "A", webhookNode "B"],
    edges := [{ id := "e1", source := "A", target := "B" },
              { id := "e2", source := "B", target := "A" }] }

/-- The chain `A → B`. -/
def chainWf : Workflow :=
  { id := 2, nodes := [webhookNode "A", transformNode "B"],
    edges := [{ id := "e1", source := "A", target := "B" }] }

/-- The diamond `A → B, A → C, B → D, C → D`. -/
def diamondWf : Workflow :=
  { id := 3,
    nodes := [webhookNode "A", transformNode "B", transformNode "C",
      transformNode "D"],
    edges := [{ id := "e1", source := "A", target := "B" },
              { id := "e2", source := "A", target := "C" },
              { id := "e3", source := "B", target := "D" },
              { id := "e4", source := "C", target := "D" }] }

/-- One `database` node with a connection string but no `query`. -/
def dbBadWf : Workflow :=
  { id := 4,
    nodes := [{ id := "db", type := "database",
                data := [("connectionString", Json.str "postgres:")] }],
    edges := [] }

/-- One webhook node and no edges. -/
def singleWf : Workflow :=
  { id := 5, nodes := [webhookNode "W"], edges := [] }

def demoCredJson : Json := Json.obj [("user", Json.str "u")]

def demoTokObj : Json := Json.obj [("token", Json.str "abc")]

def demoTokens : OAuthTokens :=
  { accessToken := "at", refreshToken := "rt", expiresAt := 0 }

def demoResp : RefreshResponse :=
  { ok := true, access_token := "at2", expires_in := 60,
    refresh_token := some "provider-new", errorText := "" }

def demoCtx : List (String × Json) := [("A", Json.obj [("b", Json.num 5)])]

def demoTplStr : String := String.mk ['x', '{', '{', 'A', '.', 'c', '}', '}']

def cexStr : String := String.mk ['{', '{', 'A', '}', '}']

def demoCreds1 : List Credential :=
  [{ id := 1, name := "gm", type := "email", data := Json.str "cipherOne",
     createdAt := "2024" }]

def demoCreds2 : List Credential :=
  [{ id := 1, name := "gm", type := "email", data := Json.str "cipherTwo",
     createdAt := "2024" }]

/-! ### Evaluation lemmas for the well-founded recursions -/

theorem decompose_ref_eq (rest path r : List Char)
    (h : extractRef rest = some (path, r)) :
    decompose ('{' :: '{' :: rest) = Seg.ref path :: decompose r := by
  rw [decompose]
  split
  · rename_i p2 r2 heq
    rw [h] at heq
    rw [Option.some.injEq, Prod.mk.injEq] at heq
    obtain ⟨h1, h2⟩ := heq
    rw [h1, h2]
  · rename_i heq
    rw [h] at heq
    exact Option.noConfusion heq

theorem decompose_lit_eq (c : Char) (rest : List Char) (hc : c ≠ '{') :
    decompose (c :: rest) = Seg.lit c :: decompose rest := by
  rw [decompose]
  intro r h1 h2
  exact absurd h1 hc

theorem decompose_nil : decompose [] = [] := by
  rw [decompose]

theorem decompose_demoTpl :
    decompose ['x', '{', '{', 'A', '.', 'c', '}', '}'] =
      [Seg.lit 'x', Seg.ref ['A', '.', 'c']] := by
  rw [decompose_lit_eq 'x' _ (by decide),
    decompose_ref_eq ['A', '.', 'c', '}', '}'] ['A', '.', 'c'] [] rfl,
    decompose_nil]

theorem decompose_cexStr :
    decompose ['{', '{', 'A', '}', '}'] = [Seg.ref ['A']] := by
  rw [decompose_ref_eq ['A', '}', '}'] ['A'] [] rfl, decompose_nil]

theorem statusGet_map_pending (l : List WNode) (id : String) :
    statusGet (l.map (fun n => (n.id, NodeStatus.pending))) id = none ∨
      statusGet (l.map (fun n => (n.id, NodeStatus.pending))) id =
        some NodeStatus.pending := by
  induction l with
  | nil => exact Or.inl rfl
  | cons n rest ih =>
    rw [List.map_cons]
    simp only [statusGet]
    by_cases h : (n.id == id) = true
    · rw [if_pos h]
      exact Or.inr rfl
    · rw [if_neg h]
      exact ih

theorem statusSeq_singleton_none (id : String) (sn : Snapshot)
    (h : statusGet sn.nodes id = none) : statusSeq id [sn] = [] := by
  simp [statusSeq, h]

theorem statusSeq_singleton_some (id : String) (sn : Snapshot)
    (st : NodeStatus) (h : statusGet sn.nodes id = some st) :
    statusSeq id [sn] = [st] := by
  simp [statusSeq, h]

/-! ## The claims -/

/-- Claim C1 (a code bug): credential creation stores
`encrypt(JSON.parse(input.data))`, but the email handler persists
refreshed Gmail tokens with a plain
`JSON.stringify({ ...decrypted, tokens })` — for any cipher whose output
is genuine base64 bytes, the stored refresh blob can never be an
`encrypt` output, so plaintext reaches the credential's data column. -/
theorem email_refresh_persists_plaintext (gcm : GcmCipher) (v : Json)
    (hbytes : ∀ x ∈ gcm.iv ++ gcm.tagBytes (stringDataOf v) ++
      gcm.ctBytes (stringDataOf v), x < 256)
    (decryptedFields : List (String × Json)) (tokens : OAuthTokens) :
    credentialCreateStoredData gcm (jsonStringify v) =
      some (encrypt gcm v) ∧
    encrypt gcm v ≠ emailRefreshStoredData decryptedFields tokens := by
  constructor
  · unfold credentialCreateStoredData
    rw [jsonParse_jsonStringify]
    rfl
  · exact encrypt_ne_emailRefreshStoredData gcm v hbytes decryptedFields
      tokens

theorem email_refresh_persists_plaintext_witness :
    credentialCreateStoredData demoGcm (jsonStringify demoCredJson) =
      some (encrypt demoGcm demoCredJson) ∧
    encrypt demoGcm demoCredJson ≠
      emailRefreshStoredData [("user", Json.str "u")] demoTokens :=
  email_refresh_persists_plaintext demoGcm demoCredJson
    (demoGcm_bytes (stringDataOf demoCredJson)) [("user", Json.str "u")]
    demoTokens

/-- Claim C2, counterexample: a plain string does not round-trip with the
default `asJSON = true` — `encrypt` feeds the raw string (no
`JSON.stringify`), so `JSON.parse` throws on the decrypted text. -/
theorem decrypt_encrypt_string_throws :
    decrypt demoDec (encrypt demoGcm (Json.str "hi")) true =
      Except.error "SyntaxError: Unexpected token in JSON" := rfl

/-- Claim C2 (amended): with a faithful decipher, `decrypt(encrypt(v))`
with `asJSON = true` returns `v` for every non-string JSON value, while a
plain string round-trips only with `asJSON = false`. -/
theorem decrypt_encrypt_roundtrip_amended (gcm : GcmCipher)
    (dec : List Nat → List Nat → List Nat → Option String) (v : Json)
    (hdec : dec gcm.iv (gcm.tagBytes (stringDataOf v))
      (gcm.ctBytes (stringDataOf v)) = some (stringDataOf v))
    (hiv : gcm.iv.length = 12)
    (htag : (gcm.tagBytes (stringDataOf v)).length = 16)
    (hbytes : ∀ x ∈ gcm.iv ++ gcm.tagBytes (stringDataOf v) ++
      gcm.ctBytes (stringDataOf v), x < 256) :
    decrypt dec (encrypt gcm v) false =
      Except.ok (Json.str (stringDataOf v)) ∧
    ((∀ s, v ≠ Json.str s) →
      decrypt dec (encrypt gcm v) true = Except.ok v) := by
  constructor
  · rw [decrypt_encrypt_pipeline gcm dec v hdec hiv htag hbytes false]
    simp
  · intro hns
    rw [decrypt_encrypt_pipeline gcm dec v hdec hiv htag hbytes true]
    have hsd : stringDataOf v = jsonStringify v := by
      cases v with
      | str s => exact absurd rfl (hns s)
      | null => rfl
      | bool b => rfl
      | num n => rfl
      | arr l => rfl
      | obj fs => rfl
    rw [hsd, jsonParse_jsonStringify]
    simp

theorem decrypt_encrypt_roundtrip_amended_witness :
    decrypt demoDec (encrypt demoGcm demoTokObj) false =
      Except.ok (Json.str (stringDataOf demoTokObj)) ∧
    ((∀ s, demoTokObj ≠ Json.str s) →
      decrypt demoDec (encrypt demoGcm demoTokObj) true =
        Except.ok demoTokObj) :=
  decrypt_encrypt_roundtrip_amended demoGcm demoDec demoTokObj
    (demoDec_demoGcm (stringDataOf demoTokObj)) rfl rfl
    (demoGcm_bytes (stringDataOf demoTokObj))

/-- Claim C3, counterexample: nothing validates that the graph is a DAG —
on the two-cycle every node has in-degree 1, the start queue is empty,
and the run completes at once with an empty data map that misses node
`A`, while no handler ever ran. -/
theorem cycle_completes_with_unexecuted_nodes :
    (executeWorkflow okOracle "T" cycleWf none).status =
      ExecStatus.completed ∧
    (executeWorkflow okOracle "T" cycleWf none).data = some [] ∧
    "A" ∈ cycleWf.nodes.map WNode.id ∧
    (executeWorkflow okOracle "T" cycleWf none).trace = [] := by
  refine ⟨rfl, rfl, ?_, rfl⟩
  decide

/-- Claim C3 (amended): when the workflow admits a topological order and
its edges reference existing node ids, every completed run's persisted
data map holds exactly the workflow's node ids. -/
theorem executeWorkflow_completed_exact_nodes
    (eff : WNode → List (String × Json) → Except String Json)
    (now : String) (wf : Workflow) (trigger : Option Json)
    (order : List String)
    (htopo : isTopoOrder order wf = true) (hvalid : edgesValid wf = true)
    (hcomp : (executeWorkflow eff now wf trigger).status =
      ExecStatus.completed) :
    ∃ ctxF : List (String × Json),
      (executeWorkflow eff now wf trigger).data = some ctxF ∧
      ∀ id, (fieldGet ctxF id).isSome = true ↔
        id ∈ wf.nodes.map WNode.id := by
  cases hv : firstValidationError wf.nodes with
  | some msg =>
    rw [executeWorkflow, hv] at hcomp
    exact ExecStatus.noConfusion hcomp
  | none =>
    obtain ⟨ctxF, visF, hdata, hvisN, hkeys, hkahn⟩ :=
      (executeWorkflow_master eff now wf trigger hv).2.2.2 hcomp
    have hall := topo_all_visited wf order htopo hvalid visF hkahn
    refine ⟨ctxF, hdata, ?_⟩
    intro id
    rw [hkeys id]
    constructor
    · rintro (h | h)
      · exact hvisN id h
      · obtain ⟨n, hn, he⟩ := seedContext_keys _ trigger id h
        rw [List.mem_map]
        exact ⟨n, (List.mem_filter.mp hn).1, he⟩
    · intro h
      rw [List.mem_map] at h
      obtain ⟨n, hn, he⟩ := h
      exact Or.inl (he ▸ hall n hn)

theorem executeWorkflow_completed_exact_nodes_witness :
    ∃ ctxF : List (String × Json),
      (executeWorkflow okOracle "T" chainWf none).data = some ctxF ∧
      ∀ id, (fieldGet ctxF id).isSome = true ↔
        id ∈ chainWf.nodes.map WNode.id :=
  executeWorkflow_completed_exact_nodes okOracle "T" chainWf none
    ["A", "B"] (by decide) (by decide) rfl

/-- Claim C4: in every run the trace of handler invocations is
duplicate-free (each node executes at most once), every traced node
appears only after all of its parents, and on the diamond
`A → B, A → C, B → D, C → D` the execution order is A, B, C, D. -/
theorem executeWorkflow_once_and_parent_gated :
    (∀ (eff : WNode → List (String × Json) → Except String Json)
      (now : String) (wf : Workflow) (trigger : Option Json),
      (executeWorkflow eff now wf trigger).trace.Nodup ∧
      (∀ pre n post,
        (executeWorkflow eff now wf trigger).trace = pre ++ n :: post →
        ∀ p ∈ getParents wf.edges n, p ∈ pre)) ∧
    (executeWorkflow okOracle "T" diamondWf (some (Json.num 1))).trace =
      ["A", "B", "C", "D"] := by
  constructor
  · intro eff now wf trigger
    cases hv : firstValidationError wf.nodes with
    | some msg =>
      rw [executeWorkflow, hv]
      refine ⟨List.nodup_nil, ?_⟩
      intro pre n post h
      exact absurd h.symm (List.append_ne_nil_of_right_ne_nil _
        (List.cons_ne_nil _ _))
    | none =>
      have h := executeWorkflow_master eff now wf trigger hv
      exact ⟨h.2.1, h.2.2.1⟩
  · rfl

/-- Claim C5: a node failing kind-specific validation fails the run with
the offending node id inside the message, emits the single all-pending
snapshot, and invokes no handler (the trace is empty). -/
theorem executeWorkflow_validation_failure
    (eff : WNode → List (String × Json) → Except String Json)
    (now : String) (wf : Workflow) (trigger : Option Json) (msg : String)
    (hv : firstValidationError wf.nodes = some msg) :
    executeWorkflow eff now wf trigger =
      { status := ExecStatus.failed,
        error := some ("Validation error: " ++ msg),
        data := none,
        snapshots := [{ status := ExecStatus.failed,
                        nodes := wf.nodes.map
                          (fun n => (n.id, NodeStatus.pending)),
                        error := some ("Validation error: " ++ msg) }],
        trace := [] } := by
  rw [executeWorkflow, hv]

theorem executeWorkflow_validation_failure_witness :
    executeWorkflow okOracle "T" dbBadWf none =
      { status := ExecStatus.failed,
        error := some ("Validation error: " ++
          "[db] Missing required field: query"),
        data := none,
        snapshots := [{ status := ExecStatus.failed,
                        nodes := dbBadWf.nodes.map
                          (fun n => (n.id, NodeStatus.pending)),
                        error := some ("Validation error: " ++
                          "[db] Missing required field: query") }],
        trace := [] } :=
  executeWorkflow_validation_failure okOracle "T" dbBadWf none
    "[db] Missing required field: query" (by decide)

/-- Claim C6: across the emitted snapshots of any run, every node's
status sequence is a stuttering prefix of pending → running →
(success or error), or pending → skipped — never running → skipped. -/
theorem executeWorkflow_status_chains
    (eff : WNode → List (String × Json) → Except String Json)
    (now : String) (wf : Workflow) (trigger : Option Json) (id : String) :
    chainOK (statusSeq id
      (executeWorkflow eff now wf trigger).snapshots) = true := by
  cases hv : firstValidationError wf.nodes with
  | some msg =>
    rw [executeWorkflow, hv]
    rcases statusGet_map_pending wf.nodes id with h | h
    · rw [statusSeq_singleton_none id _ h]
      rfl
    · rw [statusSeq_singleton_some id _ _ h]
      decide
  | none => exact (executeWorkflow_master eff now wf trigger hv).1 id

/-- Claim C7, counterexample: a dot-free reference to an id absent from
the context is not left unchanged — the callback walks zero field parts,
ends on the JavaScript `undefined`, and substitutes the string
"undefined" for the match. -/
theorem unresolved_dotfree_ref_replaced :
    resolveTemplateVariables (Json.str cexStr) [] = Json.str "undefined" ∧
    cexStr ≠ "undefined" := by
  constructor
  · simp only [resolveTemplateVariables]
    refine congrArg Json.str ?_
    rw [resolveString,
      show cexStr.data = ['{', '{', 'A', '}', '}'] from rfl,
      decompose_cexStr]
    decide
  · decide

/-- Claim C7 (amended): whenever the dot-separated path of a reference
has at least one field part and the lookup walk fails (missing node,
missing key, or non-object value), the reference is rendered as its own
literal text; a string all of whose references fail this way resolves to
itself, unchanged. -/
theorem resolveString_failed_unchanged (ctx : List (String × Json))
    (s : String)
    (hfail : ∀ path, Seg.ref path ∈ decompose s.data →
      ∃ nodeId parts, splitDots path = nodeId :: parts ∧
        walkPath (fieldGet ctx (String.mk nodeId)) parts =
          WalkRes.failed) :
    resolveTemplateVariables (Json.str s) ctx =
      Json.str (resolveString ctx s) ∧
    resolveString ctx s = s := by
  constructor
  · simp only [resolveTemplateVariables]
  · rw [resolveString]
    have hseg : ∀ seg ∈ decompose s.data,
        renderSeg (renderRef ctx) seg = renderSeg refText seg := by
      intro seg hsg
      cases seg with
      | lit c => rfl
      | ref path =>
        obtain ⟨nodeId, parts, hsplit, hwalk⟩ := hfail path hsg
        show renderRef ctx path = refText path
        simp only [renderRef, hsplit, hwalk]
    rw [List.map_congr_left hseg, decompose_recompose]

theorem resolveString_failed_unchanged_witness :
    resolveTemplateVariables (Json.str demoTplStr) demoCtx =
      Json.str (resolveString demoCtx demoTplStr) ∧
    resolveString demoCtx demoTplStr = demoTplStr :=
  resolveString_failed_unchanged demoCtx demoTplStr (by
    intro path hpath
    rw [show demoTplStr.data = ['x', '{', '{', 'A', '.', 'c', '}', '}']
      from rfl, decompose_demoTpl] at hpath
    simp at hpath
    subst hpath
    exact ⟨['A'], [['c']], rfl, rfl⟩)

/-- Claim C8, counterexample: a falsy pre-seeded trigger value is not
returned verbatim — `if (context[node.id])` tests truthiness, so the
trigger `0` is replaced by the synthetic stub, both in the handler and
in a full run. -/
theorem webhook_falsy_trigger_not_verbatim :
    executeWebhook "T" (webhookNode "W") [("W", Json.num 0)] =
      webhookStub "T" ∧
    webhookStub "T" ≠ Json.num 0 ∧
    (executeWorkflow okOracle "T" singleWf (some (Json.num 0))).data =
      some [("W", webhookStub "T")] := by
  refine ⟨rfl, ?_, rfl⟩
  intro h
  exact Json.noConfusion h

/-- Claim C8 (amended): trigger data seeds `context[n.id]` for every
webhook start node, and the webhook handler returns the pre-seeded value
verbatim exactly when that value is truthy; for falsy pre-seeded values
and for absent ones it returns the synthetic stub. -/
theorem webhook_seed_and_passthrough (sns : List WNode) (t : Json)
    (n : WNode) (hn : n ∈ sns) (hw : n.type = "webhook") (now : String)
    (node : WNode) (ctx : List (String × Json)) :
    fieldGet (seedContext sns (some t)) n.id = some t ∧
    (∀ v, fieldGet ctx node.id = some v → truthy v = true →
      executeWebhook now node ctx = v) ∧
    (∀ v, fieldGet ctx node.id = some v → truthy v = false →
      executeWebhook now node ctx = webhookStub now) ∧
    (fieldGet ctx node.id = none →
      executeWebhook now node ctx = webhookStub now) := by
  refine ⟨seedContext_get sns t n hn hw, ?_, ?_, ?_⟩
  · intro v hv htr
    unfold executeWebhook
    rw [hv]
    show (if truthy v = true then v else webhookStub now) = v
    rw [if_pos htr]
  · intro v hv htr
    unfold executeWebhook
    rw [hv]
    show (if truthy v = true then v else webhookStub now) = webhookStub now
    rw [htr, if_neg Bool.false_ne_true]
  · intro hv
    unfold executeWebhook
    rw [hv]

theorem webhook_seed_and_passthrough_witness :
    fieldGet (seedContext [webhookNode "W"] (some (Json.num 3)))
        (webhookNode "W").id = some (Json.num 3) ∧
    (∀ v, fieldGet [("W", Json.num 3)] (webhookNode "W").id = some v →
      truthy v = true →
      executeWebhook "T" (webhookNode "W") [("W", Json.num 3)] = v) ∧
    (∀ v, fieldGet [("W", Json.num 3)] (webhookNode "W").id = some v →
      truthy v = false →
      executeWebhook "T" (webhookNode "W") [("W", Json.num 3)] =
        webhookStub "T") ∧
    (fieldGet [("W", Json.num 3)] (webhookNode "W").id = none →
      executeWebhook "T" (webhookNode "W") [("W", Json.num 3)] =
        webhookStub "T") :=
  webhook_seed_and_passthrough [webhookNode "W"] (Json.num 3)
    (webhookNode "W") (List.mem_singleton.mpr rfl) rfl "T"
    (webhookNode "W") [("W", Json.num 3)]

/-- Claim C9: every successful refresh returns the caller's refresh
token unchanged, and the function's result does not depend on any
`refresh_token` member the provider's response may carry. -/
theorem refreshGmailToken_keeps_caller_refresh_token
    (resp : RefreshResponse)
    (refreshToken clientId clientSecret : String) (now : Int)
    (t : OAuthTokens)
    (h : refreshGmailToken resp refreshToken clientId clientSecret now =
      Except.ok t) :
    t.refreshToken = refreshToken ∧
    (∀ rt2, refreshGmailToken { resp with refresh_token := rt2 }
        refreshToken clientId clientSecret now =
      refreshGmailToken resp refreshToken clientId clientSecret now) := by
  constructor
  · unfold refreshGmailToken at h
    by_cases hok : resp.ok = true
    · have hcond : (!resp.ok) = false := by rw [hok]; rfl
      rw [hcond, if_neg Bool.false_ne_true, Except.ok.injEq] at h
      rw [← h]
    · have hfalse : resp.ok = false := by
        revert hok
        cases resp.ok <;> simp
      have hcond : (!resp.ok) = true := by rw [hfalse]; rfl
      rw [hcond, if_pos rfl] at h
      exact Except.noConfusion h
  · intro rt2
    rfl

theorem refreshGmailToken_keeps_caller_refresh_token_witness :
    OAuthTokens.refreshToken
        { accessToken := "at2", refreshToken := "rt",
          expiresAt := 0 + 60 * 1000 } = "rt" ∧
    (∀ rt2, refreshGmailToken { demoResp with refresh_token := rt2 }
        "rt" "cid" "cs" 0 = refreshGmailToken demoResp "rt" "cid" "cs" 0) :=
  refreshGmailToken_keeps_caller_refresh_token demoResp "rt" "cid" "cs" 0
    { accessToken := "at2", refreshToken := "rt",
      expiresAt := 0 + 60 * 1000 } rfl

/-- Claim C10: the credentials list endpoint projects every credential to
id, name, type and createdAt — two stores differing only in the data
column produce identical list responses. -/
theorem credentials_list_independent_of_data (cs1 cs2 : List Credential)
    (h : List.Forall₂ sameExceptData cs1 cs2) :
    credentialsListResponse cs1 = credentialsListResponse cs2 := by
  induction h with
  | nil => rfl
  | cons hab htail ih =>
    rename_i a b l1 l2
    obtain ⟨h1, h2, h3, h4⟩ := hab
    show CredentialSummary.mk a.id a.name a.type a.createdAt ::
        credentialsListResponse l1 =
      CredentialSummary.mk b.id b.name b.type b.createdAt ::
        credentialsListResponse l2
    rw [h1, h2, h3, h4, ih]

theorem credentials_list_independent_of_data_witness :
    credentialsListResponse demoCreds1 = credentialsListResponse demoCreds2 :=
  credentials_list_independent_of_data demoCreds1 demoCreds2
    (List.Forall₂.cons ⟨rfl, rfl, rfl, rfl⟩ List.Forall₂.nil)

end Hyperchain
